import Mathlib

/-!
Verification of the red-black tree core of the gostl repository.

The Go source (ds/rbtree) implements a CLRS-style red-black tree with
mutable nodes carrying parent/left/right pointers.  We embed it shallowly:

* a heap node becomes a constructor `RbNode.node color left key value right`;
  a nil pointer becomes `RbNode.nil`;
* a node handle (a `*Node` pointer into a tree) becomes a *location*: the
  subtree rooted at that node together with the path of ancestor frames up
  to the root (a zipper).  Each frame records the parent's color, key,
  value and the sibling subtree, i.e. exactly the information reachable
  from the parent pointer in the Go heap;
* the imperative fixup loops that walk upward via `parent` pointers become
  recursion on the path; the pointer surgery of `leftRotate`/`rightRotate`
  becomes the corresponding local rearrangement of frames, which is the
  same heap transformation read back as a term;
* the comparator `Comparator[K] func(a, b K) int` becomes
  `cmp : α → β → Int`-style `cmp : α → α → Int`.

Branches that dereference a nil pointer in Go (and would panic) are marked
`unreachable` in comments; they return an arbitrary well-typed value and are
excluded by the well-formedness invariants under which all theorems are
stated.
-/

namespace Gostl

/-- Go: `type Color bool`. -/
abbrev Color := Bool

/-- Go: `RED = false`. -/
abbrev RED : Color := false

/-- Go: `BLACK = true`. -/
abbrev BLACK : Color := true

/-- Go: `type Node[K, V any] struct { parent, left, right *Node; color Color; key K; value V }`.
`nil` is the nil pointer; the parent pointer is represented by the path (zipper)
a location carries, not stored in the node. -/
inductive RbNode (α β : Type) where
  | nil
  | node (color : Color) (left : RbNode α β) (key : α) (value : β) (right : RbNode α β)
deriving DecidableEq, Repr

namespace RbNode

/-- Go `getColor`: `if n == nil { return BLACK }; return n.color`. -/
def getColor : RbNode α β → Color
  | .nil => BLACK
  | .node c _ _ _ _ => c

/-- Writing `n.color = BLACK` for a possibly spliced-in node; on the nil
pointer the Go code guards with `if x != nil` and `blacken .nil = .nil`
models the guarded write. -/
def blacken : RbNode α β → RbNode α β
  | .nil => .nil
  | .node _ l k v r => .node BLACK l k v r

/-- The in-order list of (key, value) entries of the live nodes. -/
def inorder : RbNode α β → List (α × β)
  | .nil => []
  | .node _ l k v r => inorder l ++ (k, v) :: inorder r

end RbNode

/-- One ancestor frame of a location, as seen through a parent pointer:
`left c k v r up` means the focus is the *left* child of a node with color
`c`, key `k`, value `v` and right child `r`, whose own ancestors are `up`;
`right c l k v up` is the mirror (focus is the right child). -/
inductive Path (α β : Type) where
  | root
  | left (color : Color) (key : α) (value : β) (right : RbNode α β) (up : Path α β)
  | right (color : Color) (left : RbNode α β) (key : α) (value : β) (up : Path α β)
deriving DecidableEq, Repr

namespace Path

/-- Number of frames of a path (depth of the focus). -/
def psize : Path α β → Nat
  | .root => 0
  | .left _ _ _ _ up => psize up + 1
  | .right _ _ _ _ up => psize up + 1

end Path

/-- Plug a subtree back into its context, recovering the whole tree
(the tree reachable by following parent pointers up to the root). -/
def rebuild : Path α β → RbNode α β → RbNode α β
  | .root, t => t
  | .left c k v r up, t => rebuild up (.node c t k v r)
  | .right c l k v up, t => rebuild up (.node c l k v t)

/-- Path composition: replace the `.root` terminator of `q` by `p`
(`q` is a path relative to the subtree that `p` is the context of). -/
def pathApp : Path α β → Path α β → Path α β
  | .root, p => p
  | .left c k v r up, p => .left c k v r (pathApp up p)
  | .right c l k v up, p => .right c l k v (pathApp up p)

/-- Entries strictly to the left of the focus of a path, in order. -/
def leftL : Path α β → List (α × β)
  | .root => []
  | .left _ _ _ _ up => leftL up
  | .right _ l key v up => leftL up ++ RbNode.inorder l ++ [(key, v)]

/-- Entries strictly to the right of the focus of a path, in order. -/
def rightL : Path α β → List (α × β)
  | .root => []
  | .left _ k v r up => (k, v) :: RbNode.inorder r ++ rightL up
  | .right _ _ _ _ up => rightL up

/-- A location: a node handle `*Node`, i.e. the subtree hanging at the node
plus the context reachable through parent pointers. -/
abbrev Loc (α β : Type) := RbNode α β × Path α β

/-- Go `minimum`: `for n.left != nil { n = n.left }; return n`, kept as a
location (the descent pushes `.left` frames). -/
def minLoc : RbNode α β → Path α β → Loc α β
  | .node c (.node lc ll lk lv lr) k v r, p =>
      minLoc (.node lc ll lk lv lr) (.left c k v r p)
  | t, p => (t, p)

/-- Go `maximum`: `for n.right != nil { n = n.right }; return n`. -/
def maxLoc : RbNode α β → Path α β → Loc α β
  | .node c l k v (.node rc rl rk rv rr), p =>
      maxLoc (.node rc rl rk rv rr) (.right c l k v p)
  | t, p => (t, p)

/-- The upward walk of Go `successor`:
`y := x.parent; for y != nil && x == y.right { x = y; y = x.parent }; return y`. -/
def ascendRight : RbNode α β → Path α β → Option (Loc α β)
  | t, .right c l k v up => ascendRight (.node c l k v t) up
  | t, .left c k v r up => some (.node c t k v r, up)
  | _, .root => none

/-- Go `successor`: `if x.right != nil { return minimum(x.right) }` else walk
up while the node is a right child.  On the nil pointer Go would panic
(unreachable: all callers guard). -/
def succLoc : Loc α β → Option (Loc α β)
  | (.node c l k v (.node rc rl rk rv rr), p) =>
      some (minLoc (.node rc rl rk rv rr) (.right c l k v p))
  | (.node c l k v .nil, p) => ascendRight (.node c l k v .nil) p
  | (.nil, _) => none

/-- The upward walk of Go `presuccessor`: return the parent once the node is
its right child, walking up while it is a left child. -/
def ascendLeft : RbNode α β → Path α β → Option (Loc α β)
  | t, .left c k v r up => ascendLeft (.node c t k v r) up
  | t, .right c l k v up => some (.node c l k v t, up)
  | _, .root => none

/-- Go `presuccessor`: `if x.left != nil { return maximum(x.left) }`, else if
the node is a right child return the parent, else walk up while it is a
left child (both upward branches are `ascendLeft`). -/
def predLoc : Loc α β → Option (Loc α β)
  | (.node c (.node lc ll lk lv lr) k v r, p) =>
      some (maxLoc (.node lc ll lk lv lr) (.left c k v r p))
  | (.node c .nil k v r, p) => ascendLeft (.node c .nil k v r) p
  | (.nil, _) => none

/-- Go `RbTree[K, V]`: root pointer, size counter and comparator. -/
structure RbTree (α β : Type) where
  root : RbNode α β
  size : Int
  keyCmp : α → α → Int

/-- Go `New`: `&RbTree[K, V]{keyCmp: cmp}` (root nil, size 0). -/
def New (cmp : α → α → Int) : RbTree α β := ⟨.nil, 0, cmp⟩

/-- Go `Size`: returns the size counter. -/
def RbTree.Size (t : RbTree α β) : Int := t.size

/-- Go `Empty`: `t.size == 0`. -/
def RbTree.Empty (t : RbTree α β) : Bool := t.size == 0

/-- Go `First`: `if t.root == nil { return nil }; return minimum(t.root)`,
as a node handle. -/
def First (t : RbNode α β) : Option (Loc α β) :=
  match t with
  | .nil => none
  | .node c l k v r => some (minLoc (.node c l k v r) .root)

/-- Go `Last`: `if t.root == nil { return nil }; return maximum(t.root)`. -/
def Last (t : RbNode α β) : Option (Loc α β) :=
  match t with
  | .nil => none
  | .node c l k v r => some (maxLoc (.node c l k v r) .root)

/-! ## Insertion -/

/-- The descent loop of Go `Insert`:
`for x != nil { y = x; if cmp(key, x.key) < 0 { x = x.left } else { x = x.right } }`;
the returned path is the slot where the new node is linked (its frames record
the trailing pointer `y` and all ancestors). -/
def insertDescend (cmp : α → α → Int) (key : α) : RbNode α β → Path α β → Path α β
  | .nil, p => p
  | .node c l k v r, p =>
      if cmp key k < 0 then insertDescend cmp key l (.left c k v r p)
      else insertDescend cmp key r (.right c l k v p)

/-- Go `rbInsertFixup`.  The loop `for z.parent != nil && !z.parent.color`
walks up via parent pointers; here the parent is the top path frame.
Case analysis per the source: uncle red recolors and continues from the
grandparent; uncle black rotates (inner case first rotates the parent) and
the loop then exits because the new parent is black, so those branches
return directly with the final `t.root.color = BLACK` applied.
A red parent that is the root would make Go dereference a nil grandparent
(unreachable: the root is black in every well-formed tree). -/
def rbInsertFixup : RbNode α β → Path α β → RbNode α β
  | z, .root => RbNode.blacken (rebuild .root z)
  | z, .left pc pk pv pr up =>
    if pc = RED then
      match up with
      | .root => RbNode.blacken (rebuild (.left pc pk pv pr .root) z)
      | .left _ gk gv gu gup =>
        match gu with
        | .node false ul uk uv ur =>
            rbInsertFixup
              (.node RED (.node BLACK z pk pv pr) gk gv (.node BLACK ul uk uv ur)) gup
        | _ =>
            RbNode.blacken (rebuild gup (.node BLACK z pk pv (.node RED pr gk gv gu)))
      | .right _ gl gk gv gup =>
        match gl with
        | .node false ul uk uv ur =>
            rbInsertFixup
              (.node RED (.node BLACK ul uk uv ur) gk gv (.node BLACK z pk pv pr)) gup
        | _ =>
          match z with
          | .node _ zl zk zv zr =>
              RbNode.blacken (rebuild gup
                (.node BLACK (.node RED gl gk gv zl) zk zv (.node RED zr pk pv pr)))
          | .nil => RbNode.blacken (rebuild (.left pc pk pv pr up) z)
    else RbNode.blacken (rebuild (.left pc pk pv pr up) z)
  | z, .right pc pl pk pv up =>
    if pc = RED then
      match up with
      | .root => RbNode.blacken (rebuild (.right pc pl pk pv .root) z)
      | .right _ gl gk gv gup =>
        match gl with
        | .node false ul uk uv ur =>
            rbInsertFixup
              (.node RED (.node BLACK ul uk uv ur) gk gv (.node BLACK pl pk pv z)) gup
        | _ =>
            RbNode.blacken (rebuild gup (.node BLACK (.node RED gl gk gv pl) pk pv z))
      | .left _ gk gv gu gup =>
        match gu with
        | .node false ul uk uv ur =>
            rbInsertFixup
              (.node RED (.node BLACK pl pk pv z) gk gv (.node BLACK ul uk uv ur)) gup
        | _ =>
          match z with
          | .node _ zl zk zv zr =>
              RbNode.blacken (rebuild gup
                (.node BLACK (.node RED pl pk pv zl) zk zv (.node RED zr gk gv gu)))
          | .nil => RbNode.blacken (rebuild (.right pc pl pk pv up) z)
    else RbNode.blacken (rebuild (.right pc pl pk pv up) z)

/-- Go `Insert` acting on the root: descend, link a red leaf, and either make
it the black root (empty tree) or run the fixup. -/
def insertRoot (cmp : α → α → Int) (key : α) (value : β) (t : RbNode α β) : RbNode α β :=
  match t with
  | .nil => .node BLACK .nil key value .nil
  | .node c l k v r =>
      rbInsertFixup (.node RED .nil key value .nil)
        (insertDescend cmp key (.node c l k v r) .root)

/-- Go `Insert`: the size counter is incremented on every call. -/
def RbTree.Insert (t : RbTree α β) (key : α) (value : β) : RbTree α β :=
  ⟨insertRoot t.keyCmp key value t.root, t.size + 1, t.keyCmp⟩

/-! ## Deletion

Go `rbDeleteFixup` loops `for x != t.root && getColor(x)` and dispatches to
`rbFixupLeft`/`rbFixupRight`; the parent accumulated from the splice is the
top path frame.  `delCasesLeft`/`delCasesRight` are the bodies of
`rbFixupLeft`/`rbFixupRight` after the sibling-red case (case 1) has been
resolved, together with the loop re-check: after case 2 the loop continues
from the parent, which exits at once when the parent was red (the re-check
`getColor(x)` fails and the final `x.color = BLACK` fires), and after
case 4 the source sets `x = t.root`, exiting the loop, and the final
`if x != nil { x.color = BLACK }` blackens the root. -/

mutual

/-- Cases 2-4 of Go `rbFixupLeft` (x is the left child, `w` the right
sibling), entered with the parent's color `pc` (case 1 re-enters with
`pc = RED` and the rotated context). -/
def delCasesLeft (x : RbNode α β) (pc : Color) (pk : α) (pv : β)
    (w : RbNode α β) (up : Path α β) : RbNode α β :=
  match w with
  | .nil => rebuild (.left pc pk pv .nil up) x
  | .node wc wl wk wv wr =>
    if RbNode.getColor wl = BLACK ∧ RbNode.getColor wr = BLACK then
      if pc = RED then
        rebuild up (.node BLACK x pk pv (.node RED wl wk wv wr))
      else rbDeleteFixup (.node pc x pk pv (.node RED wl wk wv wr)) up
    else
      if RbNode.getColor wr = BLACK then
        match wl with
        | .node _ a ak av b =>
            RbNode.blacken (rebuild up
              (.node pc (.node BLACK x pk pv a) ak av (.node BLACK b wk wv wr)))
        | .nil => rebuild (.left pc pk pv (.node wc wl wk wv wr) up) x
      else
        match wr with
        | .node _ u uk uv u2 =>
            RbNode.blacken (rebuild up
              (.node pc (.node BLACK x pk pv wl) wk wv (.node BLACK u uk uv u2)))
        | .nil => rebuild (.left pc pk pv (.node wc wl wk wv wr) up) x
termination_by if pc = BLACK then 2 * up.psize + 1 else 0
decreasing_by
  all_goals simp_all [RED, BLACK, Path.psize]

/-- Cases 2-4 of Go `rbFixupRight` (x is the right child, `w` the left
sibling). -/
def delCasesRight (x : RbNode α β) (pc : Color) (pk : α) (pv : β)
    (w : RbNode α β) (up : Path α β) : RbNode α β :=
  match w with
  | .nil => rebuild (.right pc .nil pk pv up) x
  | .node wc wl wk wv wr =>
    if RbNode.getColor wl = BLACK ∧ RbNode.getColor wr = BLACK then
      if pc = RED then
        rebuild up (.node BLACK (.node RED wl wk wv wr) pk pv x)
      else rbDeleteFixup (.node pc (.node RED wl wk wv wr) pk pv x) up
    else
      if RbNode.getColor wl = BLACK then
        match wr with
        | .node _ u uk uv u2 =>
            RbNode.blacken (rebuild up
              (.node pc (.node BLACK wl wk wv u) uk uv (.node BLACK u2 pk pv x)))
        | .nil => rebuild (.right pc (.node wc wl wk wv wr) pk pv up) x
      else
        match wl with
        | .node _ u uk uv u2 =>
            RbNode.blacken (rebuild up
              (.node pc (.node BLACK u uk uv u2) wk wv (.node BLACK wr pk pv x)))
        | .nil => rebuild (.right pc (.node wc wl wk wv wr) pk pv up) x
termination_by if pc = BLACK then 2 * up.psize + 1 else 0
decreasing_by
  all_goals simp_all [RED, BLACK, Path.psize]

/-- Go `rbDeleteFixup`.  The loop exits when `x` is the root (`p = .root`,
then `if x != nil { x.color = BLACK }`) or `x` is red (then blackened in
place); otherwise it dispatches on the sibling, resolving the sibling-red
case 1 by the rotation that pushes the blackened sibling above the parent. -/
def rbDeleteFixup (x : RbNode α β) (p : Path α β) : RbNode α β :=
  match p with
  | .root => RbNode.blacken x
  | .left pc pk pv w up =>
    if RbNode.getColor x = RED then
      rebuild (.left pc pk pv w up) (RbNode.blacken x)
    else
      match w with
      | .node false wl wk wv wr =>
          delCasesLeft x RED pk pv wl (.left BLACK wk wv wr up)
      | _ => delCasesLeft x pc pk pv w up
  | .right pc l pk pv up =>
    if RbNode.getColor x = RED then
      rebuild (.right pc l pk pv up) (RbNode.blacken x)
    else
      match l with
      | .node false wl wk wv wr =>
          delCasesRight x RED pk pv wr (.right BLACK wl wk wv up)
      | _ => delCasesRight x pc pk pv l up
termination_by 2 * p.psize
decreasing_by
  all_goals simp_all [RED, BLACK, Path.psize]
  all_goals split <;> omega

end

/-- The combined walk `y = successor(z) = minimum(z.right)` of Go `Delete`
together with the splice of `y`: returns `y`'s color, key, value, `y`'s
only possible child `x = y.right` and the path from the spliced position
back up to the root of the searched subtree (relative, ending in `.root`).
`none` only on the nil tree (unreachable: called on `z.right != nil`). -/
def delMin : RbNode α β → Option (Color × α × β × RbNode α β × Path α β)
  | .nil => none
  | .node c .nil k v r => some (c, k, v, r, .root)
  | .node c (.node lc ll lk lv lr) k v r =>
    match delMin (.node lc ll lk lv lr) with
    | some (yc, yk, yv, x, q) => some (yc, yk, yv, x, pathApp q (.left c k v r .root))
    | none => none

/-- Go `Delete` acting at the location of the target node `z`:
with two children, the successor `y` is spliced out and `y.key`/`y.value`
are copied into `z` (the `.right` frame rebuilt with `yk`, `yv`); otherwise
`z` itself is spliced, replaced by its only child `x`.  The fixup runs iff
the spliced node was black. -/
def deleteLoc (z : RbNode α β) (p : Path α β) : RbNode α β :=
  match z with
  | .nil => rebuild p z
  | .node zc zl _zk _zv zr =>
    match zl, zr with
    | .node lc ll lk lv lr, .node rc rl rk rv rr =>
      match delMin (.node rc rl rk rv rr) with
      | some (yc, yk, yv, x, q) =>
        let px := pathApp q (.right zc (.node lc ll lk lv lr) yk yv p)
        if yc = BLACK then rbDeleteFixup x px else rebuild px x
      | none => rebuild p z
    | _, _ =>
      let x := match zl with | .nil => zr | _ => zl
      if zc = BLACK then rbDeleteFixup x p else rebuild p x

/-- Go `Delete`: `if z == nil { return }` models the nil handle; otherwise
the node is spliced and the size counter decremented unconditionally. -/
def RbTree.Delete (t : RbTree α β) (h : Option (Loc α β)) : RbTree α β :=
  match h with
  | none => t
  | some (.nil, _) => t
  | some (.node zc zl zk zv zr, p) =>
      ⟨deleteLoc (.node zc zl zk zv zr) p, t.size - 1, t.keyCmp⟩

/-! ## Search -/

/-- Go `findLowerBoundNode`: recursive descent; on `cmp(key, x.key) <= 0`
search the left subtree and keep its result when `cmp(ret.key, x.key) <= 0`,
else take `x`; otherwise recurse right.  The result is returned as a node
handle (subtree plus path).  A returned nil focus is impossible (every
`some` focuses a node); that match arm is unreachable. -/
def findLowerBoundNode (cmp : α → α → Int) (key : α) :
    RbNode α β → Path α β → Option (Loc α β)
  | .nil, _ => none
  | .node c l k v r, p =>
    if cmp key k ≤ 0 then
      match findLowerBoundNode cmp key l (.left c k v r p) with
      | none => some (.node c l k v r, p)
      | some (.node rc rl rk rv rr, rp) =>
          if cmp rk k ≤ 0 then some (.node rc rl rk rv rr, rp)
          else some (.node c l k v r, p)
      | some (.nil, _) => none
    else findLowerBoundNode cmp key r (.right c l k v p)

/-- Go `FindLowerBoundNode`: `findLowerBoundNode(t.root, key)`. -/
def RbTree.FindLowerBoundNode (t : RbTree α β) (key : α) : Option (Loc α β) :=
  findLowerBoundNode t.keyCmp key t.root .root

/-- Go `findUpperBoundNode`: on `cmp(key, x.key) >= 0` recurse right;
otherwise search left and keep its result when `cmp(ret.key, x.key) <= 0`,
else take `x`. -/
def findUpperBoundNode (cmp : α → α → Int) (key : α) :
    RbNode α β → Path α β → Option (Loc α β)
  | .nil, _ => none
  | .node c l k v r, p =>
    if cmp key k ≥ 0 then findUpperBoundNode cmp key r (.right c l k v p)
    else
      match findUpperBoundNode cmp key l (.left c k v r p) with
      | none => some (.node c l k v r, p)
      | some (.node rc rl rk rv rr, rp) =>
          if cmp rk k ≤ 0 then some (.node rc rl rk rv rr, rp)
          else some (.node c l k v r, p)
      | some (.nil, _) => none

/-- Go `FindUpperBoundNode`: `findUpperBoundNode(t.root, key)`. -/
def RbTree.FindUpperBoundNode (t : RbTree α β) (key : α) : Option (Loc α β) :=
  findUpperBoundNode t.keyCmp key t.root .root

/-- Go `findFirstNode`: the lower bound when it compares equal to the key,
else nil. -/
def findFirstNode (cmp : α → α → Int) (key : α) (t : RbNode α β) : Option (Loc α β) :=
  match findLowerBoundNode cmp key t .root with
  | none => none
  | some (.node c l k v r, p) =>
      if cmp k key = 0 then some (.node c l k v r, p) else none
  | some (.nil, _) => none

/-- Go `FindNode`: `t.findFirstNode(key)`, returned as a node handle. -/
def RbTree.FindNode (t : RbTree α β) (key : α) : Option (Loc α β) :=
  findFirstNode t.keyCmp key t.root

/-- Go's `ErrorNotFound` (the only error value `Find` produces). -/
inductive GoErr where
  | notFound
deriving DecidableEq, Repr

/-- Go `Find`: the first node with an equal key gives `(n.value, nil)`;
otherwise `(*new(V), ErrorNotFound)` — the zero value of `V` paired with
the explicit error. -/
def RbTree.Find [Inhabited β] (t : RbTree α β) (key : α) : β × Option GoErr :=
  match findFirstNode t.keyCmp key t.root with
  | some (.node _ _ _ v _, _) => (v, none)
  | _ => (default, some GoErr.notFound)

/-! ## Invariant checker -/

/-- Go `test`: bottom-up check of the red-black properties, returning
(black count, violated property, ok).  The pointer comparison `n == t.root`
holds exactly for the top-level call (an inner node is never the root in a
well-formed heap), modelled by the `isRoot` flag. -/
def testAux : Bool → RbNode α β → Nat × Nat × Bool
  | _, .nil => (1, 0, true)
  | isRoot, .node c l _ _ r =>
    if isRoot ∧ c = RED then (1, 2, false)
    else
      match testAux false l with
      | (leftBlackCount, property, false) => (leftBlackCount, property, false)
      | (leftBlackCount, _, true) =>
        match testAux false r with
        | (rightBlackCount, property, false) => (rightBlackCount, property, false)
        | (rightBlackCount, _, true) =>
          if rightBlackCount ≠ leftBlackCount then (leftBlackCount, 5, false)
          else
            if c = RED then
              if RbNode.getColor l = RED ∨ RbNode.getColor r = RED then (0, 4, false)
              else (leftBlackCount, 0, true)
            else (leftBlackCount + 1, 0, true)

/-- Go `IsRbTree`: `(true, nil)` when `test` accepts, else `(false, err)`
carrying the violated property number. -/
def RbTree.IsRbTree (t : RbTree α β) : Bool × Option Nat :=
  match testAux true t.root with
  | (_, property, false) => (false, some property)
  | (_, _, true) => (true, none)

/-! ## Iterator -/

/-- Go `RbTreeIterator`: a cursor holding a possibly nil node pointer. -/
structure RbTreeIterator (α β : Type) where
  node : Option (Loc α β)

/-- Go `NewIterator`. -/
def NewIterator (node : Option (Loc α β)) : RbTreeIterator α β := ⟨node⟩

/-- Go `IterFirst`: `NewIterator(t.First())`. -/
def RbTree.IterFirst (t : RbTree α β) : RbTreeIterator α β := NewIterator (First t.root)

/-- Go `IterLast`: `NewIterator(t.Last())`. -/
def RbTree.IterLast (t : RbTree α β) : RbTreeIterator α β := NewIterator (Last t.root)

namespace RbTreeIterator

/-- Go `IsValid`: `iter.node != nil`. -/
def IsValid (iter : RbTreeIterator α β) : Bool := iter.node.isSome

/-- Go `Next`: `if iter.IsValid() { iter.node = iter.node.Next() }; return iter`. -/
def Next (iter : RbTreeIterator α β) : RbTreeIterator α β :=
  match iter.node with
  | none => iter
  | some l => ⟨succLoc l⟩

/-- Go `Prev`: `if iter.IsValid() { iter.node = iter.node.Prev() }; return iter`. -/
def Prev (iter : RbTreeIterator α β) : RbTreeIterator α β :=
  match iter.node with
  | none => iter
  | some l => ⟨predLoc l⟩

/-- Go `Key`: `iter.node.Key()` — dereferences the node pointer, so a nil
cursor panics; `none` models the panic. -/
def Key (iter : RbTreeIterator α β) : Option α :=
  match iter.node with
  | some (.node _ _ k _ _, _) => some k
  | _ => none

/-- Go `Value`: `iter.node.Value()`; `none` models the nil-pointer panic. -/
def Value (iter : RbTreeIterator α β) : Option β :=
  match iter.node with
  | some (.node _ _ _ v _, _) => some v
  | _ => none

/-- Go `SetValue`: `iter.node.SetValue(val)` writes in place; `none` models
the nil-pointer panic. -/
def SetValue (iter : RbTreeIterator α β) (val : β) : Option (RbTreeIterator α β) :=
  match iter.node with
  | some (.node c l k _ r, p) => some ⟨some (.node c l k val r, p)⟩
  | _ => none

/-- Go `Clone`: `NewIterator(iter.node)`. -/
def Clone (iter : RbTreeIterator α β) : RbTreeIterator α β := NewIterator iter.node

/-- Go `Equal`: pointer identity of the referenced nodes — two handles are
the same pointer iff they are the same location in the tree. -/
def Equal [DecidableEq α] [DecidableEq β]
    (iter other : RbTreeIterator α β) : Bool :=
  iter.node == other.node

end RbTreeIterator

/-! ## Traversal -/

/-- The loop of Go `Traversal`:
`for node := t.First(); node != nil; node = node.Next() { if !visitor(...) { break } }`,
observed as the list of (key, value) pairs passed to the visitor.  The loop
is bounded by fuel; `Traversal` supplies fuel covering every live entry, and
the successor chain from the first node is exactly that long. -/
def traversalLoop (visitor : α → β → Bool) : Nat → Option (Loc α β) → List (α × β)
  | 0, _ => []
  | _, none => []
  | fuel + 1, some l =>
    match l with
    | (.node c tl k v tr, p) =>
        if visitor k v then
          (k, v) :: traversalLoop visitor fuel (succLoc (.node c tl k v tr, p))
        else [(k, v)]
    | (.nil, _) => []

/-- Go `Traversal`, observed as the sequence of visitor invocations. -/
def RbTree.Traversal (t : RbTree α β) (visitor : α → β → Bool) : List (α × β) :=
  traversalLoop visitor (RbNode.inorder t.root).length (First t.root)

/-- A concrete valid comparator over `Int`, as a Go caller would supply
(`comparator.IntComparator` style). -/
def intCmp (a b : Int) : Int :=
  if a < b then -1 else if a = b then 0 else 1

/-! ## Specification-side definitions -/

/-- A valid (total, consistent) comparator in the sense of the spec:
the sign of `cmp a b` orients consistently and non-strict comparison is
transitive.  Everything the proofs need follows from these two. -/
structure ValidCmp (cmp : α → α → Int) : Prop where
  oriented : ∀ a b, cmp a b < 0 ↔ 0 < cmp b a
  le_trans : ∀ a b c, cmp a b ≤ 0 → cmp b c ≤ 0 → cmp a c ≤ 0

/-- Entry order induced by a comparator on (key, value) pairs. -/
def entryLe (cmp : α → α → Int) (u w : α × β) : Prop := cmp u.1 w.1 ≤ 0

/-- The in-order entries are non-decreasing under the comparator. -/
def SortedEntries (cmp : α → α → Int) (l : List (α × β)) : Prop :=
  l.Pairwise (entryLe cmp)

/-- The (key, value) entry at a node handle (none for the nil pointer). -/
def rootEntry : RbNode α β → Option (α × β)
  | .nil => none
  | .node _ _ k v _ => some (k, v)

/-- Red-black color/height validity (properties 1-5 of the source comment
minus ordering): a red node has black children, and both children carry the
same black-height.  `Balanced t c n`: `t` has root color `c` (nil counts
black) and black-height `n`. -/
inductive Balanced : RbNode α β → Color → Nat → Prop where
  | nil : Balanced .nil BLACK 0
  | red {l r : RbNode α β} {k : α} {v : β} {n : Nat} :
      Balanced l BLACK n → Balanced r BLACK n → Balanced (.node RED l k v r) RED n
  | black {l r : RbNode α β} {c₁ c₂ : Color} {k : α} {v : β} {n : Nat} :
      Balanced l c₁ n → Balanced r c₂ n → Balanced (.node BLACK l k v r) BLACK (n + 1)

/-- The nearest enclosing frame exists and is black (i.e. the parent of the
focus is a black node). -/
def TopBlackFrame : Path α β → Prop
  | .root => False
  | .left c _ _ _ _ => c = BLACK
  | .right c _ _ _ _ => c = BLACK

/-- Color of the outermost frame (the root node of the rebuilt tree);
`BLACK` by convention on the empty path. -/
def outerFrameColor : Path α β → Color
  | .root => BLACK
  | .left c _ _ _ .root => c
  | .right c _ _ _ .root => c
  | .left _ _ _ _ up => outerFrameColor up
  | .right _ _ _ _ up => outerFrameColor up

/-- Validity of a context with a hole of black-height `n`, rebuilding to a
tree of black-height `N`: every red frame has a black parent frame and a
black-rooted sibling (so the only possible red-red violation is at the
hole). -/
inductive PathBal : Path α β → Nat → Nat → Prop where
  | root {n : Nat} : PathBal .root n n
  | leftB {up : Path α β} {n N : Nat} {k : α} {v : β} {r : RbNode α β} {c : Color} :
      PathBal up (n + 1) N → Balanced r c n → PathBal (.left BLACK k v r up) n N
  | rightB {up : Path α β} {n N : Nat} {k : α} {v : β} {l : RbNode α β} {c : Color} :
      PathBal up (n + 1) N → Balanced l c n → PathBal (.right BLACK l k v up) n N
  | leftR {up : Path α β} {n N : Nat} {k : α} {v : β} {r : RbNode α β} :
      PathBal up n N → TopBlackFrame up → Balanced r BLACK n →
      PathBal (.left RED k v r up) n N
  | rightR {up : Path α β} {n N : Nat} {k : α} {v : β} {l : RbNode α β} :
      PathBal up n N → TopBlackFrame up → Balanced l BLACK n →
      PathBal (.right RED l k v up) n N

/-- The trees (with sizes and comparator) reachable from `New` by any
sequence of `Insert` and `Delete` calls, where every deleted handle is a
node of the current tree (as Go handles obtained from Find/iterators are),
including the nil handle (a no-op). -/
inductive Reach : RbTree α β → Prop where
  | new (cmp : α → α → Int) : Reach (New cmp)
  | insert {t : RbTree α β} (k : α) (v : β) : Reach t → Reach (t.Insert k v)
  | delete_nil {t : RbTree α β} : Reach t → Reach (t.Delete none)
  | delete {t : RbTree α β} {z : RbNode α β} {p : Path α β} :
      Reach t → rebuild p z = t.root → z ≠ .nil → Reach (t.Delete (some (z, p)))

/-- The in-order entries still to be visited from a location onward: the
focus entry, its right subtree, then the pending ancestor entries. -/
def remEntries : Loc α β → List (α × β)
  | (.nil, p) => rightL p
  | (.node _ _ k v r, p) => (k, v) :: RbNode.inorder r ++ rightL p

/-- Modelled from the spec: traversal "accepts a per-entry callback invoked
in ascending key order; traversal stops early iff the callback signals
stop" — visit the given (ascending) entries in order, keeping each visited
entry, stopping after the first entry on which the callback returns false. -/
def specVisited (visitor : α → β → Bool) : List (α × β) → List (α × β)
  | [] => []
  | e :: es => if visitor e.1 e.2 then e :: specVisited visitor es else [e]

/-- Inserting a list of entries into a fresh tree (`New` then repeated
`Insert`), the setup of the spec round-trip property. -/

def insertListK (cmp : α → α → Int) (es : List (α × β)) : RbTree α β :=
  es.foldl (fun t e => t.Insert e.1 e.2) (New cmp)

def deleteListK (t : RbTree α β) (ks : List α) : RbTree α β :=
  ks.foldl (fun t k => t.Delete (t.FindNode k)) t

/-! ## Decidability instances and an example tree -/

instance (cmp : α → α → Int) (u w : α × β) : Decidable (entryLe cmp u w) :=
  inferInstanceAs (Decidable (cmp u.1 w.1 ≤ 0))

instance (cmp : α → α → Int) (l : List (α × β)) : Decidable (SortedEntries cmp l) :=
  inferInstanceAs (Decidable (l.Pairwise (entryLe cmp)))

def exampleTree1357 : RbTree Int Int :=
  ⟨.node BLACK (.node BLACK .nil 1 1 .nil) 3 3
      (.node BLACK (.node RED .nil 5 5 .nil) 7 7 .nil), 4, intCmp⟩

/-! # Theorems

First the basic algebra of contexts, then the order-free structure lemmas,
then the color/balance preservation proofs, and finally one theorem per
specification claim (with a closed witness each). -/

@[simp] theorem inorder_nil : RbNode.inorder (.nil : RbNode α β) = [] := rfl

@[simp] theorem inorder_node (c : Color) (l : RbNode α β) (k : α) (v : β) (r : RbNode α β) :
    RbNode.inorder (.node c l k v r) = RbNode.inorder l ++ (k, v) :: RbNode.inorder r := rfl

@[simp] theorem blacken_inorder (t : RbNode α β) :
    RbNode.inorder t.blacken = RbNode.inorder t := by
  cases t <;> simp [RbNode.blacken]

theorem rebuild_inorder (p : Path α β) (t : RbNode α β) :
    RbNode.inorder (rebuild p t) = leftL p ++ RbNode.inorder t ++ rightL p := by
  induction p generalizing t with
  | root => simp [rebuild, leftL, rightL]
  | left c k v r up ih => simp [rebuild, leftL, rightL, ih]
  | right c l k v up ih => simp [rebuild, leftL, rightL, ih]

theorem rebuild_pathApp (q p : Path α β) (t : RbNode α β) :
    rebuild (pathApp q p) t = rebuild p (rebuild q t) := by
  induction q generalizing t with
  | root => simp [pathApp, rebuild]
  | left c k v r up ih => simp [pathApp, rebuild, ih]
  | right c l k v up ih => simp [pathApp, rebuild, ih]

theorem leftL_pathApp (q p : Path α β) :
    leftL (pathApp q p) = leftL p ++ leftL q := by
  induction q with
  | root => simp [pathApp, leftL]
  | left c k v r up ih => simp [pathApp, leftL, ih]
  | right c l k v up ih => simp [pathApp, leftL, ih]

theorem rightL_pathApp (q p : Path α β) :
    rightL (pathApp q p) = rightL q ++ rightL p := by
  induction q with
  | root => simp [pathApp, rightL]
  | left c k v r up ih => simp [pathApp, rightL, ih]
  | right c l k v up ih => simp [pathApp, rightL, ih]

theorem Balanced.getColor_eq {t : RbNode α β} {c : Color} {n : Nat}
    (h : Balanced t c n) : t.getColor = c := by
  cases h <;> rfl

theorem blacken_balanced {t : RbNode α β} {c : Color} {n : Nat} (h : Balanced t c n) :
    Balanced t.blacken BLACK (if c = BLACK then n else n + 1) := by
  cases h with
  | nil => simp [RbNode.blacken, BLACK]; exact .nil
  | red hl hr => simp [RbNode.blacken, BLACK, RED]; exact .black hl hr
  | black hl hr => simp [RbNode.blacken, BLACK]; exact .black hl hr

theorem getColor_rebuild (p : Path α β) (t : RbNode α β) (hp : p ≠ .root) :
    (rebuild p t).getColor = outerFrameColor p := by
  induction p generalizing t with
  | root => exact absurd rfl hp
  | left c k v r up ih =>
    cases up with
    | root => rfl
    | left c2 k2 v2 r2 up2 => exact ih (.node c t k v r) (by simp)
    | right c2 l2 k2 v2 up2 => exact ih (.node c t k v r) (by simp)
  | right c l k v up ih =>
    cases up with
    | root => rfl
    | left c2 k2 v2 r2 up2 => exact ih (.node c l k v t) (by simp)
    | right c2 l2 k2 v2 up2 => exact ih (.node c l k v t) (by simp)

theorem ValidCmp.le_iff {cmp : α → α → Int} (h : ValidCmp cmp) (a b : α) :
    cmp a b ≤ 0 ↔ 0 ≤ cmp b a := by
  rw [← Int.not_lt, ← Int.not_lt, not_iff_not]
  exact (h.oriented b a).symm

theorem ValidCmp.lt_of_le_of_lt {cmp : α → α → Int} (h : ValidCmp cmp) {a b c : α}
    (h1 : cmp a b ≤ 0) (h2 : cmp b c < 0) : cmp a c < 0 := by
  by_contra hc
  rw [Int.not_lt] at hc
  have hca : cmp c a ≤ 0 := (h.le_iff c a).mpr hc
  have hcb : cmp c b ≤ 0 := h.le_trans c a b hca h1
  have : 0 < cmp c b := (h.oriented b c).mp h2
  omega

theorem ValidCmp.lt_of_lt_of_le {cmp : α → α → Int} (h : ValidCmp cmp) {a b c : α}
    (h1 : cmp a b < 0) (h2 : cmp b c ≤ 0) : cmp a c < 0 := by
  by_contra hc
  rw [Int.not_lt] at hc
  have hca : cmp c a ≤ 0 := (h.le_iff c a).mpr hc
  have hba : cmp b a ≤ 0 := h.le_trans b c a h2 hca
  have : 0 < cmp b a := (h.oriented a b).mp h1
  omega

theorem validCmp_intCmp : ValidCmp intCmp := by
  constructor
  · intro a b
    simp only [intCmp]
    split_ifs <;> omega
  · intro a b c
    simp only [intCmp]
    split_ifs <;> omega

/-! ## Search correctness -/

theorem findLowerBoundNode_loc {cmp : α → α → Int} {key : α} :
    ∀ {t : RbNode α β} {p : Path α β} {res : Loc α β},
      findLowerBoundNode cmp key t p = some res →
      rebuild res.2 res.1 = rebuild p t ∧ res.1 ≠ .nil := by
  intro t
  induction t with
  | nil => intro p res h; simp [findLowerBoundNode] at h
  | node c l k v r ihl ihr =>
    intro p res h
    rw [findLowerBoundNode] at h
    split at h
    · split at h
      · cases h
        exact ⟨rfl, by simp⟩
      · next heq =>
          split at h <;> cases h
          · exact ⟨by simpa [rebuild] using (ihl heq).1, by simp⟩
          · exact ⟨rfl, by simp⟩
      · simp at h
    · exact ihr h

theorem findUpperBoundNode_loc {cmp : α → α → Int} {key : α} :
    ∀ {t : RbNode α β} {p : Path α β} {res : Loc α β},
      findUpperBoundNode cmp key t p = some res →
      rebuild res.2 res.1 = rebuild p t ∧ res.1 ≠ .nil := by
  intro t
  induction t with
  | nil => intro p res h; simp [findUpperBoundNode] at h
  | node c l k v r ihl ihr =>
    intro p res h
    rw [findUpperBoundNode] at h
    split at h
    · exact ihr h
    · split at h
      · cases h
        exact ⟨rfl, by simp⟩
      · next heq =>
          split at h <;> cases h
          · exact ⟨by simpa [rebuild] using (ihl heq).1, by simp⟩
          · exact ⟨rfl, by simp⟩
      · simp at h


theorem findLowerBoundNode_find {cmp : α → α → Int} (hv : ValidCmp cmp) (key : α) :
    ∀ {t : RbNode α β} {p : Path α β}, SortedEntries cmp (RbNode.inorder t) →
      (findLowerBoundNode cmp key t p).bind (fun l => rootEntry l.1)
        = (RbNode.inorder t).find? (fun e => decide (cmp key e.1 ≤ 0)) := by
  intro t
  induction t with
  | nil => intro p _; simp [findLowerBoundNode]
  | node c l k v r ihl ihr =>
    intro p hs
    have h3 := List.pairwise_append.mp (by simpa [SortedEntries] using hs)
    have hsl : SortedEntries cmp (RbNode.inorder l) := h3.1
    have hsr : SortedEntries cmp (RbNode.inorder r) := (List.pairwise_cons.mp h3.2.1).2
    have hcross := h3.2.2
    rw [inorder_node, List.find?_append, findLowerBoundNode]
    split
    · next hc =>
      rw [List.find?_cons_of_pos _ (by simpa using hc)]
      split
      · next heq =>
        have hL := ihl hsl (p := .left c k v r p)
        rw [heq] at hL
        rw [← hL]
        simp [rootEntry]
      · next rc2 rl2 rk2 rv2 rr2 rp2 heq =>
        have hL := ihl hsl (p := .left c k v r p)
        rw [heq] at hL
        split
        · next hle =>
          rw [← hL]
          simp [rootEntry]
        · next hle =>
          exfalso
          apply hle
          have hmem : ((rk2, rv2) : α × β) ∈ RbNode.inorder l :=
            List.mem_of_find?_eq_some (by simpa [rootEntry] using hL.symm)
          have := hcross _ hmem (k, v) (List.mem_cons_self _ _)
          simpa [entryLe] using this
      · next rp2 heq =>
        exact absurd rfl (findLowerBoundNode_loc heq).2
    · next hc =>
      have hkk : cmp k key < 0 := (hv.oriented k key).mpr (by omega)
      have hLnone : (RbNode.inorder l).find? (fun e => decide (cmp key e.1 ≤ 0)) = none := by
        refine List.find?_eq_none.mpr (fun u hu => ?_)
        have hcrossu := hcross u hu (k, v) (List.mem_cons_self _ _)
        have : cmp u.1 key < 0 := hv.lt_of_le_of_lt (by simpa [entryLe] using hcrossu) hkk
        have : 0 < cmp key u.1 := (hv.oriented u.1 key).mp this
        simpa using (by omega : ¬ cmp key u.1 ≤ 0)
      rw [hLnone, List.find?_cons_of_neg _ (by simpa using hc)]
      simpa using ihr hsr (p := .right c l k v p)

theorem findUpperBoundNode_find {cmp : α → α → Int} (hv : ValidCmp cmp) (key : α) :
    ∀ {t : RbNode α β} {p : Path α β}, SortedEntries cmp (RbNode.inorder t) →
      (findUpperBoundNode cmp key t p).bind (fun l => rootEntry l.1)
        = (RbNode.inorder t).find? (fun e => decide (cmp key e.1 < 0)) := by
  intro t
  induction t with
  | nil => intro p _; simp [findUpperBoundNode]
  | node c l k v r ihl ihr =>
    intro p hs
    have h3 := List.pairwise_append.mp (by simpa [SortedEntries] using hs)
    have hsl : SortedEntries cmp (RbNode.inorder l) := h3.1
    have hsr : SortedEntries cmp (RbNode.inorder r) := (List.pairwise_cons.mp h3.2.1).2
    have hcross := h3.2.2
    rw [inorder_node, List.find?_append, findUpperBoundNode]
    split
    · next hc =>
      have hkey : cmp k key ≤ 0 := (hv.le_iff k key).mpr (by omega)
      have hLnone : (RbNode.inorder l).find? (fun e => decide (cmp key e.1 < 0)) = none := by
        refine List.find?_eq_none.mpr (fun u hu => ?_)
        have hcrossu := hcross u hu (k, v) (List.mem_cons_self _ _)
        have hu1 : cmp u.1 key ≤ 0 :=
          hv.le_trans u.1 k key (by simpa [entryLe] using hcrossu) hkey
        have : ¬ cmp key u.1 < 0 := by
          intro hlt
          have : 0 < cmp u.1 key := (hv.oriented key u.1).mp hlt
          omega
        simpa using this
      rw [hLnone, List.find?_cons_of_neg _ (by simpa using (by omega : ¬ cmp key k < 0))]
      simpa using ihr hsr (p := .right c l k v p)
    · next hc =>
      have hc2 : cmp key k < 0 := by omega
      rw [List.find?_cons_of_pos _ (by simpa using hc2)]
      split
      · next heq =>
        have hL := ihl hsl (p := .left c k v r p)
        rw [heq] at hL
        rw [← hL]
        simp [rootEntry]
      · next rc2 rl2 rk2 rv2 rr2 rp2 heq =>
        have hL := ihl hsl (p := .left c k v r p)
        rw [heq] at hL
        split
        · next hle =>
          rw [← hL]
          simp [rootEntry]
        · next hle =>
          exfalso
          apply hle
          have hmem : ((rk2, rv2) : α × β) ∈ RbNode.inorder l :=
            List.mem_of_find?_eq_some (by simpa [rootEntry] using hL.symm)
          have := hcross _ hmem (k, v) (List.mem_cons_self _ _)
          simpa [entryLe] using this
      · next rp2 heq =>
        exact absurd rfl (findUpperBoundNode_loc heq).2


/-! ## Insertion: entries and order -/

theorem insertDescend_rebuild (cmp : α → α → Int) (key : α) :
    ∀ (t : RbNode α β) (p : Path α β),
      rebuild (insertDescend cmp key t p) .nil = rebuild p t := by
  intro t
  induction t with
  | nil => intro p; simp [insertDescend, rebuild]
  | node c l k v r ihl ihr =>
    intro p
    rw [insertDescend]
    split
    · rw [ihl]; rfl
    · rw [ihr]; rfl

theorem insertDescend_entries {cmp : α → α → Int} (hv : ValidCmp cmp) (key : α) :
    ∀ {t : RbNode α β} {p : Path α β}, SortedEntries cmp (RbNode.inorder t) →
      ∃ A B, leftL (insertDescend cmp key t p) = leftL p ++ A
        ∧ rightL (insertDescend cmp key t p) = B ++ rightL p
        ∧ A ++ B = RbNode.inorder t
        ∧ (∀ u ∈ A, 0 ≤ cmp key u.1) ∧ (∀ u ∈ B, cmp key u.1 < 0) := by
  intro t
  induction t with
  | nil =>
    intro p _
    exact ⟨[], [], by simp [insertDescend], by simp [insertDescend], rfl, by simp, by simp⟩
  | node c l k v r ihl ihr =>
    intro p hs
    have h3 := List.pairwise_append.mp (by simpa [SortedEntries] using hs)
    have hsl : SortedEntries cmp (RbNode.inorder l) := h3.1
    have hsr : SortedEntries cmp (RbNode.inorder r) := (List.pairwise_cons.mp h3.2.1).2
    have hknode := (List.pairwise_cons.mp h3.2.1).1
    have hcross := h3.2.2
    rw [insertDescend]
    split
    · next hc =>
      obtain ⟨A, B, h1, h2, h4, h5, h6⟩ := ihl (p := .left c k v r p) hsl
      refine ⟨A, B ++ (k, v) :: RbNode.inorder r, ?_, ?_, ?_, h5, ?_⟩
      · simpa [leftL] using h1
      · rw [h2]; simp [rightL]
      · rw [← List.append_assoc, h4]; simp
      · intro u hu
        rcases List.mem_append.mp hu with hu | hu
        · exact h6 u hu
        · rcases List.mem_cons.mp hu with hu | hu
          · subst hu; exact hc
          · exact hv.lt_of_lt_of_le hc (hknode u hu)
    · next hc =>
      obtain ⟨A, B, h1, h2, h4, h5, h6⟩ := ihr (p := .right c l k v p) hsr
      refine ⟨RbNode.inorder l ++ (k, v) :: A, B, ?_, ?_, ?_, ?_, h6⟩
      · rw [h1]; simp [leftL]
      · simpa [rightL] using h2
      · simp only [List.append_assoc, List.cons_append]
        rw [h4]
        simp
      · intro u hu
        have hkk : 0 ≤ cmp key k := by omega
        rcases List.mem_append.mp hu with hu | hu
        · have hul : cmp u.1 k ≤ 0 := by
            simpa [entryLe] using hcross u hu (k, v) (List.mem_cons_self _ _)
          have : cmp u.1 key ≤ 0 := hv.le_trans u.1 k key hul ((hv.le_iff k key).mpr hkk)
          exact (hv.le_iff u.1 key).mp this
        · rcases List.mem_cons.mp hu with hu | hu
          · subst hu; exact hkk
          · exact h5 u hu

theorem rbInsertFixup_inorder (z : RbNode α β) (p : Path α β) :
    RbNode.inorder (rbInsertFixup z p) = leftL p ++ RbNode.inorder z ++ rightL p := by
  induction z, p using rbInsertFixup.induct <;>
    first
      | (simp_all [rbInsertFixup, rebuild_inorder, leftL, rightL]; done)
      | (rw [rbInsertFixup.eq_def]; simp_all [rebuild_inorder, leftL, rightL])


/-! ## Balance framework -/

theorem ofc_left_cons {c : Color} {k : α} {v : β} {r : RbNode α β} {up : Path α β}
    (h : up ≠ .root) : outerFrameColor (.left c k v r up) = outerFrameColor up := by
  cases up <;> simp_all [outerFrameColor]

theorem ofc_right_cons {c : Color} {l : RbNode α β} {k : α} {v : β} {up : Path α β}
    (h : up ≠ .root) : outerFrameColor (.right c l k v up) = outerFrameColor up := by
  cases up <;> simp_all [outerFrameColor]

theorem pathBal_rebuild {p : Path α β} {n N : Nat} (hp : PathBal p n N) :
    ∀ {t : RbNode α β} {c : Color}, Balanced t c n → (c = RED → TopBlackFrame p) →
      ∃ c2, Balanced (rebuild p t) c2 N := by
  induction hp with
  | root => exact fun ht _ => ⟨_, ht⟩
  | leftB hup hr ih =>
    intro t c ht _
    exact ih (.black ht hr) (fun h => absurd h (by decide))
  | rightB hup hl ih =>
    intro t c ht _
    exact ih (.black hl ht) (fun h => absurd h (by decide))
  | leftR hup htop hr ih =>
    intro t c ht hred
    have hc : c = BLACK := by
      cases c
      · exact absurd (hred rfl) (by simp [TopBlackFrame, BLACK, RED])
      · rfl
    subst hc
    exact ih (.red ht hr) (fun _ => htop)
  | rightR hup htop hl ih =>
    intro t c ht hred
    have hc : c = BLACK := by
      cases c
      · exact absurd (hred rfl) (by simp [TopBlackFrame, BLACK, RED])
      · rfl
    subst hc
    exact ih (.red hl ht) (fun _ => htop)

theorem pathBal_rebuild_black {p : Path α β} {n N : Nat} (hp : PathBal p n N)
    {t : RbNode α β} (ht : Balanced t BLACK n) (ho : outerFrameColor p = BLACK) :
    Balanced (rebuild p t) BLACK N := by
  obtain ⟨c2, h2⟩ := pathBal_rebuild hp ht (fun h => absurd h (by decide))
  have hcol : (rebuild p t).getColor = BLACK := by
    cases p with
    | root => simpa [rebuild] using ht.getColor_eq
    | left c k v r up => rw [getColor_rebuild _ _ (by simp)]; exact ho
    | right c l k v up => rw [getColor_rebuild _ _ (by simp)]; exact ho
  have hc2 : c2 = BLACK := by rw [← h2.getColor_eq, hcol]
  rwa [hc2] at h2

theorem plug_blacken {p : Path α β} {n N : Nat} (hp : PathBal p n N)
    {t : RbNode α β} {c : Color} (ht : Balanced t c n) (hred : c = RED → TopBlackFrame p) :
    ∃ M, Balanced (RbNode.blacken (rebuild p t)) BLACK M := by
  obtain ⟨c2, h2⟩ := pathBal_rebuild hp ht hred
  exact ⟨_, blacken_balanced h2⟩

theorem balanced_unbuild : ∀ {p : Path α β} {t : RbNode α β} {N : Nat},
    Balanced (rebuild p t) BLACK N →
    ∃ n c, PathBal p n N ∧ Balanced t c n ∧ (c = RED → TopBlackFrame p)
      ∧ outerFrameColor p = BLACK := by
  intro p
  induction p with
  | root =>
    intro t N h
    exact ⟨N, BLACK, .root, h, fun h2 => absurd h2 (by decide), rfl⟩
  | left c k v r up ih =>
    intro t N h
    obtain ⟨n', c', hpb, hbal, hred, ho⟩ := ih (by simpa [rebuild] using h)
    cases hbal with
    | red hl hr =>
      have htop := hred rfl
      have hup : up ≠ Path.root := by
        intro he
        rw [he] at htop
        exact htop
      refine ⟨n', BLACK, .leftR hpb htop hr, hl, fun h2 => absurd h2 (by decide), ?_⟩
      rw [ofc_left_cons hup]
      exact ho
    | black hl hr =>
      refine ⟨_, _, .leftB hpb hr, hl, fun _ => rfl, ?_⟩
      cases up with
      | root => rfl
      | left c2 k2 v2 r2 up2 => rw [ofc_left_cons (by simp)]; exact ho
      | right c2 l2 k2 v2 up2 => rw [ofc_left_cons (by simp)]; exact ho
  | right c l k v up ih =>
    intro t N h
    obtain ⟨n', c', hpb, hbal, hred, ho⟩ := ih (by simpa [rebuild] using h)
    cases hbal with
    | red hl hr =>
      have htop := hred rfl
      have hup : up ≠ Path.root := by
        intro he
        rw [he] at htop
        exact htop
      refine ⟨n', BLACK, .rightR hpb htop hl, hr, fun h2 => absurd h2 (by decide), ?_⟩
      rw [ofc_right_cons hup]
      exact ho
    | black hl hr =>
      refine ⟨_, _, .rightB hpb hl, hr, fun _ => rfl, ?_⟩
      cases up with
      | root => rfl
      | left c2 k2 v2 r2 up2 => rw [ofc_right_cons (by simp)]; exact ho
      | right c2 l2 k2 v2 up2 => rw [ofc_right_cons (by simp)]; exact ho


theorem rbInsertFixup_balanced : ∀ (z : RbNode α β) (p : Path α β) (n N : Nat),
    PathBal p n N → Balanced z RED n → ∃ M, Balanced (rbInsertFixup z p) BLACK M := by
  intro z p
  induction z, p using rbInsertFixup.induct with
  | case1 z =>
    intro n N hp hz
    exact ⟨_, blacken_balanced (by simpa [rbInsertFixup, rebuild] using hz)⟩
  | case2 z pk pv pr =>
    intro n N hp hz
    cases hp with
    | leftR hup htop hr => exact htop.elim
  | case3 z pk pv pr gc gk gv gup ul uk uv ur ih =>
    intro n N hp hz
    cases hp with
    | leftR hup htop hr =>
      cases hup with
      | leftR hgup2 htop2 hu2 => exact absurd htop (by simp [TopBlackFrame])
      | leftB hgup hu =>
        cases hu with
        | red hul hur =>
          simp only [rbInsertFixup]
          exact ih _ _ hgup (.red (.black hz hr) (.black hul hur))
  | case4 z pk pv pr gc gk gv gup gu hne =>
    intro n N hp hz
    cases hp with
    | leftR hup htop hr =>
      cases hup with
      | leftR hgup2 htop2 hu2 => exact absurd htop (by simp [TopBlackFrame])
      | leftB hgup hu =>
        have hcu : ∃ hgu2 : Balanced gu BLACK n, True := by
          cases hu with
          | nil => exact ⟨.nil, trivial⟩
          | red hl2 hr2 => exact (hne _ _ _ _ rfl).elim
          | black hl2 hr2 => exact ⟨.black hl2 hr2, trivial⟩
        obtain ⟨hgu2, -⟩ := hcu
        have hres : rbInsertFixup z (.left RED pk pv pr (.left BLACK gk gv gu gup))
            = RbNode.blacken (rebuild gup
                (.node BLACK z pk pv (.node RED pr gk gv gu))) := by
          rw [rbInsertFixup.eq_def]
          cases gu with
          | nil => simp
          | node guc gul guk guv gur =>
            cases guc with
            | false => exact (hne _ _ _ _ rfl).elim
            | true => simp [RED]
        rw [hres]
        exact plug_blacken hgup (.black hz (.red hr hgu2)) (fun h => absurd h (by decide))
  | case5 z pk pv pr gc gk gv gup ul uk uv ur ih =>
    intro n N hp hz
    cases hp with
    | leftR hup htop hr =>
      cases hup with
      | rightR hgup2 htop2 hu2 => exact absurd htop (by simp [TopBlackFrame])
      | rightB hgup hu =>
        cases hu with
        | red hul hur =>
          simp only [rbInsertFixup]
          exact ih _ _ hgup (.red (.black hul hur) (.black hz hr))
  | case6 pk pv pr gc gk gv gup gu hne zc zl zk zv zr =>
    intro n N hp hz
    cases hp with
    | leftR hup htop hr =>
      cases hup with
      | rightR hgup2 htop2 hu2 => exact absurd htop (by simp [TopBlackFrame])
      | rightB hgup hu =>
        have hcu : ∃ hgu2 : Balanced gu BLACK n, True := by
          cases hu with
          | nil => exact ⟨.nil, trivial⟩
          | red hl2 hr2 => exact (hne _ _ _ _ rfl).elim
          | black hl2 hr2 => exact ⟨.black hl2 hr2, trivial⟩
        obtain ⟨hgu2, -⟩ := hcu
        cases hz with
        | red hzl hzr =>
          have hres : rbInsertFixup (.node RED zl zk zv zr)
                (.left RED pk pv pr (.right BLACK gu gk gv gup))
              = RbNode.blacken (rebuild gup
                  (.node BLACK (.node RED gu gk gv zl) zk zv (.node RED zr pk pv pr))) := by
            rw [rbInsertFixup.eq_def]
            cases gu with
            | nil => simp
            | node guc gul guk guv gur =>
              cases guc with
              | false => exact (hne _ _ _ _ rfl).elim
              | true => simp [RED]
          rw [hres]
          exact plug_blacken hgup (.black (.red hgu2 hzl) (.red hzr hr))
            (fun h => absurd h (by decide))
  | case7 pk pv pr gc gk gv gup gu hne =>
    intro n N hp hz
    cases hz
  | case8 z pc pk pv pr up hpc =>
    intro n N hp hz
    have hpcb : pc = BLACK := by
      cases pc
      · exact absurd rfl hpc
      · rfl
    have hres : rbInsertFixup z (.left pc pk pv pr up)
        = RbNode.blacken (rebuild (.left pc pk pv pr up) z) := by
      rw [rbInsertFixup.eq_def]
      simp [hpc]
    rw [hres]
    exact plug_blacken hp hz (fun _ => hpcb)
  | case9 z pl pk pv =>
    intro n N hp hz
    cases hp with
    | rightR hup htop hl => exact htop.elim
  | case10 z pl pk pv gc gk gv gup ul uk uv ur ih =>
    intro n N hp hz
    cases hp with
    | rightR hup htop hl =>
      cases hup with
      | rightR hgup2 htop2 hu2 => exact absurd htop (by simp [TopBlackFrame])
      | rightB hgup hu =>
        cases hu with
        | red hul hur =>
          simp only [rbInsertFixup]
          exact ih _ _ hgup (.red (.black hul hur) (.black hl hz))
  | case11 z pl pk pv gc gl gk gv gup hne =>
    intro n N hp hz
    cases hp with
    | rightR hup htop hl =>
      cases hup with
      | rightR hgup2 htop2 hu2 => exact absurd htop (by simp [TopBlackFrame])
      | rightB hgup hu =>
        have hcu : ∃ hgu2 : Balanced gl BLACK n, True := by
          cases hu with
          | nil => exact ⟨.nil, trivial⟩
          | red hl2 hr2 => exact (hne _ _ _ _ rfl).elim
          | black hl2 hr2 => exact ⟨.black hl2 hr2, trivial⟩
        obtain ⟨hgu2, -⟩ := hcu
        have hres : rbInsertFixup z (.right RED pl pk pv (.right BLACK gl gk gv gup))
            = RbNode.blacken (rebuild gup
                (.node BLACK (.node RED gl gk gv pl) pk pv z)) := by
          rw [rbInsertFixup.eq_def]
          cases gl with
          | nil => simp
          | node guc gul guk guv gur =>
            cases guc with
            | false => exact (hne _ _ _ _ rfl).elim
            | true => simp [RED]
        rw [hres]
        exact plug_blacken hgup (.black (.red hgu2 hl) hz) (fun h => absurd h (by decide))
  | case12 z pl pk pv gc gk gv gup ul uk uv ur ih =>
    intro n N hp hz
    cases hp with
    | rightR hup htop hl =>
      cases hup with
      | leftR hgup2 htop2 hu2 => exact absurd htop (by simp [TopBlackFrame])
      | leftB hgup hu =>
        cases hu with
        | red hul hur =>
          simp only [rbInsertFixup]
          exact ih _ _ hgup (.red (.black hl hz) (.black hul hur))
  | case13 pl pk pv gc gk gv gu gup zc zl zk zv zr hne =>
    intro n N hp hz
    cases hp with
    | rightR hup htop hl =>
      cases hup with
      | leftR hgup2 htop2 hu2 => exact absurd htop (by simp [TopBlackFrame])
      | leftB hgup hu =>
        have hcu : ∃ hgu2 : Balanced gu BLACK n, True := by
          cases hu with
          | nil => exact ⟨.nil, trivial⟩
          | red hl2 hr2 => exact (hne _ _ _ _ rfl).elim
          | black hl2 hr2 => exact ⟨.black hl2 hr2, trivial⟩
        obtain ⟨hgu2, -⟩ := hcu
        cases hz with
        | red hzl hzr =>
          have hres : rbInsertFixup (.node RED zl zk zv zr)
                (.right RED pl pk pv (.left BLACK gk gv gu gup))
              = RbNode.blacken (rebuild gup
                  (.node BLACK (.node RED pl pk pv zl) zk zv (.node RED zr gk gv gu))) := by
            rw [rbInsertFixup.eq_def]
            cases gu with
            | nil => simp
            | node guc gul guk guv gur =>
              cases guc with
              | false => exact (hne _ _ _ _ rfl).elim
              | true => simp [RED]
          rw [hres]
          exact plug_blacken hgup (.black (.red hl hzl) (.red hzr hgu2))
            (fun h => absurd h (by decide))
  | case14 pl pk pv gc gk gv gu gup hne =>
    intro n N hp hz
    cases hz
  | case15 z pc pl pk pv up hpc =>
    intro n N hp hz
    have hpcb : pc = BLACK := by
      cases pc
      · exact absurd rfl hpc
      · rfl
    have hres : rbInsertFixup z (.right pc pl pk pv up)
        = RbNode.blacken (rebuild (.right pc pl pk pv up) z) := by
      rw [rbInsertFixup.eq_def]
      simp [hpc]
    rw [hres]
    exact plug_blacken hp hz (fun _ => hpcb)


theorem insertDescend_pathBal {cmp : α → α → Int} {key : α} :
    ∀ {t : RbNode α β} {p : Path α β} {c : Color} {n N : Nat},
      PathBal p n N → Balanced t c n → (c = RED → TopBlackFrame p) →
      PathBal (insertDescend cmp key t p) 0 N := by
  intro t
  induction t with
  | nil =>
    intro p c n N hp ht _
    cases ht
    simpa [insertDescend] using hp
  | node c0 l k v r ihl ihr =>
    intro p c n N hp ht hred
    rw [insertDescend]
    split
    · cases ht with
      | red hl hr =>
        exact ihl (.leftR hp (hred rfl) hr) hl (fun h => absurd h (by decide))
      | black hl hr => exact ihl (.leftB hp hr) hl (fun _ => rfl)
    · cases ht with
      | red hl hr =>
        exact ihr (.rightR hp (hred rfl) hl) hr (fun h => absurd h (by decide))
      | black hl hr => exact ihr (.rightB hp hl) hr (fun _ => rfl)

theorem insertRoot_balanced {cmp : α → α → Int} {key : α} {value : β}
    {t : RbNode α β} {N : Nat} (hb : Balanced t BLACK N) :
    ∃ M, Balanced (insertRoot cmp key value t) BLACK M := by
  cases t with
  | nil => exact ⟨1, .black .nil .nil⟩
  | node c l k v r =>
    have hdesc : PathBal (insertDescend cmp key (.node c l k v r) .root) 0 N :=
      insertDescend_pathBal .root hb (fun h => absurd h (by decide))
    exact rbInsertFixup_balanced _ _ _ _ hdesc (.red .nil .nil)


theorem noRedBlack {l r : RbNode α β} {k : α} {v : β} {n : Nat}
    (h : Balanced (.node RED l k v r) BLACK n) : False := nomatch h

theorem balanced_nil_succ {c : Color} {n : Nat}
    (h : Balanced (.nil : RbNode α β) c (n + 1)) : False := nomatch h

theorem topBlack_ne_root {p : Path α β} (h : TopBlackFrame p) : p ≠ .root := by
  intro he
  rw [he] at h
  exact h

theorem ofc_drop_left {c : Color} {k : α} {v : β} {r : RbNode α β} {up : Path α β}
    (h : outerFrameColor (.left c k v r up) = BLACK) : outerFrameColor up = BLACK := by
  cases up with
  | root => rfl
  | left c2 k2 v2 r2 up2 => rwa [ofc_left_cons (by simp)] at h
  | right c2 l2 k2 v2 up2 => rwa [ofc_left_cons (by simp)] at h

theorem ofc_drop_right {c : Color} {l : RbNode α β} {k : α} {v : β} {up : Path α β}
    (h : outerFrameColor (.right c l k v up) = BLACK) : outerFrameColor up = BLACK := by
  cases up with
  | root => rfl
  | left c2 k2 v2 r2 up2 => rwa [ofc_right_cons (by simp)] at h
  | right c2 l2 k2 v2 up2 => rwa [ofc_right_cons (by simp)] at h

theorem ofc_push_ll {c1 : Color} {k1 : α} {v1 : β} {r1 : RbNode α β}
    {k2 : α} {v2 : β} {r2 : RbNode α β} {up : Path α β}
    (h : outerFrameColor up = BLACK) :
    outerFrameColor (.left c1 k1 v1 r1 (.left BLACK k2 v2 r2 up)) = BLACK := by
  cases up <;> simp_all [outerFrameColor]

theorem ofc_push_rr {c1 : Color} {l1 : RbNode α β} {k1 : α} {v1 : β}
    {l2 : RbNode α β} {k2 : α} {v2 : β} {up : Path α β}
    (h : outerFrameColor up = BLACK) :
    outerFrameColor (.right c1 l1 k1 v1 (.right BLACK l2 k2 v2 up)) = BLACK := by
  cases up <;> simp_all [outerFrameColor]


theorem balanced_cast {t : RbNode α β} {c c2 : Color} {n : Nat}
    (h : Balanced t c n) (hg : t.getColor = c2) : Balanced t c2 n := by
  have e : c = c2 := by rw [← h.getColor_eq, hg]
  exact e ▸ h


theorem rbDeleteFixup_balanced :
    ∀ (x : RbNode α β) (p : Path α β) (n N : Nat) (cx : Color),
      PathBal p (n + 1) N → Balanced x cx n → outerFrameColor p = BLACK →
      ∃ M, Balanced (rbDeleteFixup x p) BLACK M := by
  refine rbDeleteFixup.induct
    (fun x pc pk pv w up => ∀ (n N : Nat),
      PathBal (.left pc pk pv w up) (n + 1) N → Balanced x BLACK n →
      w.getColor = BLACK → outerFrameColor (.left pc pk pv w up) = BLACK →
      ∃ M, Balanced (delCasesLeft x pc pk pv w up) BLACK M)
    (fun x p => ∀ (n N : Nat) (cx : Color),
      PathBal p (n + 1) N → Balanced x cx n → outerFrameColor p = BLACK →
      ∃ M, Balanced (rbDeleteFixup x p) BLACK M)
    (fun x pc pk pv w up => ∀ (n N : Nat),
      PathBal (.right pc w pk pv up) (n + 1) N → Balanced x BLACK n →
      w.getColor = BLACK → outerFrameColor (.right pc w pk pv up) = BLACK →
      ∃ M, Balanced (delCasesRight x pc pk pv w up) BLACK M)
    ?q1 ?q2 ?q3 ?q4 ?q5 ?q6 ?q7 ?q8 ?q9 ?q10 ?q11 ?q12 ?q13 ?q14 ?q15 ?q16 ?q17 ?q18 ?q19 ?q20 ?q21
  case q1 =>
    intro x pc pk pv up n N hp hx hw ho
    cases hp with
    | leftB hup hwn => exact (balanced_nil_succ hwn).elim
    | leftR hup htop hwn => exact (balanced_nil_succ hwn).elim
  case q2 =>
    intro x pk pv up wc wl wk wv wr hcc n N hp hx hwc ho
    cases hp with
    | leftR hup htop hw =>
      cases hw with
      | black hwl hwr =>
        have hc1 := balanced_cast hwl hcc.1
        have hc2 := balanced_cast hwr hcc.2
        have hres : delCasesLeft x RED pk pv (.node BLACK wl wk wv wr) up
            = rebuild up (.node BLACK x pk pv (.node RED wl wk wv wr)) := by
          rw [delCasesLeft.eq_def]
          simp [hcc.1, hcc.2]
        rw [hres]
        have ho' : outerFrameColor up = BLACK := by
          rwa [ofc_left_cons (topBlack_ne_root htop)] at ho
        exact ⟨N, pathBal_rebuild_black hup (.black hx (.red hc1 hc2)) ho'⟩
  case q3 =>
    intro x pc pk pv up wc wl wk wv wr hcc hpc ih n N hp hx hwc ho
    cases hp with
    | leftR hup htop hw => exact absurd rfl hpc
    | leftB hup hw =>
      cases hw with
      | red hwl hwr => exact absurd hwc (by simp [RbNode.getColor])
      | black hwl hwr =>
        have hc1 := balanced_cast hwl hcc.1
        have hc2 := balanced_cast hwr hcc.2
        have hres : delCasesLeft x BLACK pk pv (.node BLACK wl wk wv wr) up
            = rbDeleteFixup (.node BLACK x pk pv (.node RED wl wk wv wr)) up := by
          rw [delCasesLeft.eq_def]
          simp [hcc.1, hcc.2]
        rw [hres]
        exact ih (n + 1) N BLACK hup (.black hx (.red hc1 hc2)) (ofc_drop_left ho)
  case q4 =>
    intro x pc pk pv up wc wk wv wr h3 zc zl zk zv zr hcc n N hp hx hwc ho
    have hzc : zc = RED := by
      cases zc with
      | false => rfl
      | true => exact absurd ⟨rfl, h3⟩ hcc
    subst hzc
    cases hp with
    | leftB hup hw =>
      cases hw with
      | red hwl hwr => exact absurd hwc (by simp [RbNode.getColor])
      | black hwl hwr =>
        cases hwl with
        | red hzl hzr =>
          have hc2 := balanced_cast hwr h3
          have hres : delCasesLeft x BLACK pk pv
                (.node BLACK (.node RED zl zk zv zr) wk wv wr) up
              = RbNode.blacken (rebuild up
                  (.node BLACK (.node BLACK x pk pv zl) zk zv (.node BLACK zr wk wv wr))) := by
            rw [delCasesLeft.eq_def]
            have hgw : wr.getColor = BLACK := h3
            rw [RbNode.getColor.eq_def] at hgw
            simp [h3, hgw, RbNode.getColor]
          rw [hres]
          exact plug_blacken hup (.black (.black hx hzl) (.black hzr hc2))
            (fun h => absurd h (by decide))
    | leftR hup htop hw =>
      cases hw with
      | black hwl hwr =>
        cases hwl with
        | red hzl hzr =>
          have hc2 := balanced_cast hwr h3
          have hres : delCasesLeft x RED pk pv
                (.node BLACK (.node RED zl zk zv zr) wk wv wr) up
              = RbNode.blacken (rebuild up
                  (.node RED (.node BLACK x pk pv zl) zk zv (.node BLACK zr wk wv wr))) := by
            rw [delCasesLeft.eq_def]
            have hgw : wr.getColor = BLACK := h3
            rw [RbNode.getColor.eq_def] at hgw
            simp [h3, hgw, RbNode.getColor]
          rw [hres]
          exact plug_blacken hup (.red (.black hx hzl) (.black hzr hc2)) (fun _ => htop)
  case q5 =>
    intro x pc pk pv up wc wk wv wr h3 hcc n N hp hx hwc ho
    exact (hcc ⟨rfl, h3⟩).elim
  case q6 =>
    intro x pc pk pv up wc wl wk wv zc zl zk zv zr hcc hnb n N hp hx hwc ho
    have hzc : zc = RED := by
      cases zc with
      | false => rfl
      | true => exact absurd rfl hnb
    subst hzc
    cases hp with
    | leftB hup hw =>
      cases hw with
      | red hwl hwr => exact absurd hwc (by simp [RbNode.getColor])
      | black hwl hwr =>
        cases hwr with
        | red hzl hzr =>
          have hres : delCasesLeft x BLACK pk pv
                (.node BLACK wl wk wv (.node RED zl zk zv zr)) up
              = RbNode.blacken (rebuild up
                  (.node BLACK (.node BLACK x pk pv wl) wk wv (.node BLACK zl zk zv zr))) := by
            rw [delCasesLeft.eq_def]
            simp [RbNode.getColor]
          rw [hres]
          exact plug_blacken hup (.black (.black hx hwl) (.black hzl hzr))
            (fun h => absurd h (by decide))
    | leftR hup htop hw =>
      cases hw with
      | black hwl hwr =>
        cases hwr with
        | red hzl hzr =>
          have hres : delCasesLeft x RED pk pv
                (.node BLACK wl wk wv (.node RED zl zk zv zr)) up
              = RbNode.blacken (rebuild up
                  (.node RED (.node BLACK x pk pv wl) wk wv (.node BLACK zl zk zv zr))) := by
            rw [delCasesLeft.eq_def]
            simp [RbNode.getColor]
          rw [hres]
          exact plug_blacken hup (.red (.black hx hwl) (.black hzl hzr)) (fun _ => htop)
  case q7 =>
    intro x pc pk pv up wc wl wk wv hcc hnb n N hp hx hwc ho
    exact (hnb rfl).elim
  case q8 =>
    intro x n N cx hp hx ho
    exact ⟨_, by simpa [rbDeleteFixup] using blacken_balanced hx⟩
  case q9 =>
    intro x pc pk pv w up hxr n N cx hp hx ho
    have hcx : cx = RED := by rw [← hx.getColor_eq]; exact hxr
    subst hcx
    have hb : Balanced x.blacken BLACK (n + 1) := by simpa using blacken_balanced hx
    have hres : rbDeleteFixup x (.left pc pk pv w up)
        = rebuild (.left pc pk pv w up) x.blacken := by
      rw [rbDeleteFixup.eq_def]
      simp [hxr]
    rw [hres]
    exact ⟨N, pathBal_rebuild_black hp hb ho⟩
  case q10 =>
    intro x pc pk pv up hxn ul uk uv ur ih n N cx hp hx ho
    have hcx : cx = BLACK := by
      cases cx with
      | false => exact absurd hx.getColor_eq hxn
      | true => rfl
    subst hcx
    cases hp with
    | leftR hup htop hw => exact (noRedBlack hw).elim
    | leftB hup hw =>
      cases hw with
      | red hul hur =>
        have hres : rbDeleteFixup x (.left BLACK pk pv (.node RED ul uk uv ur) up)
            = delCasesLeft x RED pk pv ul (.left BLACK uk uv ur up) := by
          rw [rbDeleteFixup.eq_def]
          simp [hxn]
        rw [hres]
        exact ih n N (.leftR (.leftB hup hur) rfl hul) hx hul.getColor_eq
          (ofc_push_ll (ofc_drop_left ho))
  case q11 =>
    intro x pc pk pv up hxn w hne ih n N cx hp hx ho
    have hcx : cx = BLACK := by
      cases cx with
      | false => exact absurd hx.getColor_eq hxn
      | true => rfl
    subst hcx
    have hp' := hp
    have hgw : w.getColor = BLACK := by
      cases hp with
      | leftB hup hw =>
        cases hw with
        | red hwl hwr => exact (hne _ _ _ _ rfl).elim
        | black hwl hwr => rfl
      | leftR hup htop hw => exact hw.getColor_eq
    have hres : rbDeleteFixup x (.left pc pk pv w up) = delCasesLeft x pc pk pv w up := by
      rw [rbDeleteFixup.eq_def]
      cases w with
      | nil => simp [hxn]
      | node wc wl0 wk0 wv0 wr0 =>
        cases wc with
        | false => exact (hne _ _ _ _ rfl).elim
        | true => simp [hxn]
    rw [hres]
    exact ih n N hp' hx hgw ho
  case q12 =>
    intro x pc w pk pv up hxr n N cx hp hx ho
    have hcx : cx = RED := by rw [← hx.getColor_eq]; exact hxr
    subst hcx
    have hb : Balanced x.blacken BLACK (n + 1) := by simpa using blacken_balanced hx
    have hres : rbDeleteFixup x (.right pc w pk pv up)
        = rebuild (.right pc w pk pv up) x.blacken := by
      rw [rbDeleteFixup.eq_def]
      simp [hxr]
    rw [hres]
    exact ⟨N, pathBal_rebuild_black hp hb ho⟩
  case q13 =>
    intro x pc pk pv up hxn ul uk uv ur ih n N cx hp hx ho
    have hcx : cx = BLACK := by
      cases cx with
      | false => exact absurd hx.getColor_eq hxn
      | true => rfl
    subst hcx
    cases hp with
    | rightR hup htop hw => exact (noRedBlack hw).elim
    | rightB hup hw =>
      cases hw with
      | red hul hur =>
        have hres : rbDeleteFixup x (.right BLACK (.node RED ul uk uv ur) pk pv up)
            = delCasesRight x RED pk pv ur (.right BLACK ul uk uv up) := by
          rw [rbDeleteFixup.eq_def]
          simp [hxn]
        rw [hres]
        exact ih n N (.rightR (.rightB hup hul) rfl hur) hx hur.getColor_eq
          (ofc_push_rr (ofc_drop_right ho))
  case q14 =>
    intro x pc pk pv up hxn w hne ih n N cx hp hx ho
    have hcx : cx = BLACK := by
      cases cx with
      | false => exact absurd hx.getColor_eq hxn
      | true => rfl
    subst hcx
    have hp' := hp
    have hgw : w.getColor = BLACK := by
      cases hp with
      | rightB hup hw =>
        cases hw with
        | red hwl hwr => exact (hne _ _ _ _ rfl).elim
        | black hwl hwr => rfl
      | rightR hup htop hw => exact hw.getColor_eq
    have hres : rbDeleteFixup x (.right pc w pk pv up) = delCasesRight x pc pk pv w up := by
      rw [rbDeleteFixup.eq_def]
      cases w with
      | nil => simp [hxn]
      | node wc wl0 wk0 wv0 wr0 =>
        cases wc with
        | false => exact (hne _ _ _ _ rfl).elim
        | true => simp [hxn]
    rw [hres]
    exact ih n N hp' hx hgw ho
  case q15 =>
    intro x pc pk pv up n N hp hx hw ho
    cases hp with
    | rightB hup hwn => exact (balanced_nil_succ hwn).elim
    | rightR hup htop hwn => exact (balanced_nil_succ hwn).elim
  case q16 =>
    intro x pk pv up wc wl wk wv wr hcc n N hp hx hwc ho
    cases hp with
    | rightR hup htop hw =>
      cases hw with
      | black hwl hwr =>
        have hc1 := balanced_cast hwl hcc.1
        have hc2 := balanced_cast hwr hcc.2
        have hres : delCasesRight x RED pk pv (.node BLACK wl wk wv wr) up
            = rebuild up (.node BLACK (.node RED wl wk wv wr) pk pv x) := by
          rw [delCasesRight.eq_def]
          simp [hcc.1, hcc.2]
        rw [hres]
        have ho' : outerFrameColor up = BLACK := by
          rwa [ofc_right_cons (topBlack_ne_root htop)] at ho
        exact ⟨N, pathBal_rebuild_black hup (.black (.red hc1 hc2) hx) ho'⟩
  case q17 =>
    intro x pc pk pv up wc wl wk wv wr hcc hpc ih n N hp hx hwc ho
    cases hp with
    | rightR hup htop hw => exact absurd rfl hpc
    | rightB hup hw =>
      cases hw with
      | red hwl hwr => exact absurd hwc (by simp [RbNode.getColor])
      | black hwl hwr =>
        have hc1 := balanced_cast hwl hcc.1
        have hc2 := balanced_cast hwr hcc.2
        have hres : delCasesRight x BLACK pk pv (.node BLACK wl wk wv wr) up
            = rbDeleteFixup (.node BLACK (.node RED wl wk wv wr) pk pv x) up := by
          rw [delCasesRight.eq_def]
          simp [hcc.1, hcc.2]
        rw [hres]
        exact ih (n + 1) N BLACK hup (.black (.red hc1 hc2) hx) (ofc_drop_right ho)
  case q18 =>
    intro x pc pk pv up wc wl wk wv h3 zc zl zk zv zr hcc n N hp hx hwc ho
    have hzc : zc = RED := by
      cases zc with
      | false => rfl
      | true => exact absurd ⟨h3, rfl⟩ hcc
    subst hzc
    cases hp with
    | rightB hup hw =>
      cases hw with
      | red hwl hwr => exact absurd hwc (by simp [RbNode.getColor])
      | black hwl hwr =>
        cases hwr with
        | red hzl hzr =>
          have hc1 := balanced_cast hwl h3
          have hres : delCasesRight x BLACK pk pv
                (.node BLACK wl wk wv (.node RED zl zk zv zr)) up
              = RbNode.blacken (rebuild up
                  (.node BLACK (.node BLACK wl wk wv zl) zk zv (.node BLACK zr pk pv x))) := by
            rw [delCasesRight.eq_def]
            have hgw : wl.getColor = BLACK := h3
            rw [RbNode.getColor.eq_def] at hgw
            simp [h3, hgw, RbNode.getColor]
          rw [hres]
          exact plug_blacken hup (.black (.black hc1 hzl) (.black hzr hx))
            (fun h => absurd h (by decide))
    | rightR hup htop hw =>
      cases hw with
      | black hwl hwr =>
        cases hwr with
        | red hzl hzr =>
          have hc1 := balanced_cast hwl h3
          have hres : delCasesRight x RED pk pv
                (.node BLACK wl wk wv (.node RED zl zk zv zr)) up
              = RbNode.blacken (rebuild up
                  (.node RED (.node BLACK wl wk wv zl) zk zv (.node BLACK zr pk pv x))) := by
            rw [delCasesRight.eq_def]
            have hgw : wl.getColor = BLACK := h3
            rw [RbNode.getColor.eq_def] at hgw
            simp [h3, hgw, RbNode.getColor]
          rw [hres]
          exact plug_blacken hup (.red (.black hc1 hzl) (.black hzr hx)) (fun _ => htop)
  case q19 =>
    intro x pc pk pv up wc wl wk wv h3 hcc n N hp hx hwc ho
    exact (hcc ⟨h3, rfl⟩).elim
  case q20 =>
    intro x pc pk pv up wc wk wv wr zc zl zk zv zr hcc hnb n N hp hx hwc ho
    have hzc : zc = RED := by
      cases zc with
      | false => rfl
      | true => exact absurd rfl hnb
    subst hzc
    cases hp with
    | rightB hup hw =>
      cases hw with
      | red hwl hwr => exact absurd hwc (by simp [RbNode.getColor])
      | black hwl hwr =>
        cases hwl with
        | red hzl hzr =>
          have hres : delCasesRight x BLACK pk pv
                (.node BLACK (.node RED zl zk zv zr) wk wv wr) up
              = RbNode.blacken (rebuild up
                  (.node BLACK (.node BLACK zl zk zv zr) wk wv (.node BLACK wr pk pv x))) := by
            rw [delCasesRight.eq_def]
            simp [RbNode.getColor]
          rw [hres]
          exact plug_blacken hup (.black (.black hzl hzr) (.black hwr hx))
            (fun h => absurd h (by decide))
    | rightR hup htop hw =>
      cases hw with
      | black hwl hwr =>
        cases hwl with
        | red hzl hzr =>
          have hres : delCasesRight x RED pk pv
                (.node BLACK (.node RED zl zk zv zr) wk wv wr) up
              = RbNode.blacken (rebuild up
                  (.node RED (.node BLACK zl zk zv zr) wk wv (.node BLACK wr pk pv x))) := by
            rw [delCasesRight.eq_def]
            simp [RbNode.getColor]
          rw [hres]
          exact plug_blacken hup (.red (.black hzl hzr) (.black hwr hx)) (fun _ => htop)
  case q21 =>
    intro x pc pk pv up wc wk wv wr hcc hnb n N hp hx hwc ho
    exact (hnb rfl).elim


theorem pathApp_assoc (q r p : Path α β) :
    pathApp (pathApp q r) p = pathApp q (pathApp r p) := by
  induction q with
  | root => rfl
  | left c k v rr up ih => simp [pathApp, ih]
  | right c l k v up ih => simp [pathApp, ih]

theorem pathApp_ne_root {q p : Path α β} (h : p ≠ .root) : pathApp q p ≠ .root := by
  cases q with
  | root => simpa [pathApp] using h
  | left c k v r up => simp [pathApp]
  | right c l k v up => simp [pathApp]

theorem ofc_pathApp (q : Path α β) {p : Path α β} (h : p ≠ .root) :
    outerFrameColor (pathApp q p) = outerFrameColor p := by
  induction q with
  | root => rfl
  | left c k v r up ih =>
    rw [pathApp, ofc_left_cons (pathApp_ne_root h)]
    exact ih
  | right c l k v up ih =>
    rw [pathApp, ofc_right_cons (pathApp_ne_root h)]
    exact ih

theorem rbDeleteFixup_inorder : ∀ (x : RbNode α β) (p : Path α β),
    RbNode.inorder (rbDeleteFixup x p) = leftL p ++ RbNode.inorder x ++ rightL p := by
  refine rbDeleteFixup.induct
    (fun x pc pk pv w up => RbNode.inorder (delCasesLeft x pc pk pv w up)
      = leftL up ++ RbNode.inorder x ++ (pk, pv) :: RbNode.inorder w ++ rightL up)
    (fun x p => RbNode.inorder (rbDeleteFixup x p) = leftL p ++ RbNode.inorder x ++ rightL p)
    (fun x pc pk pv w up => RbNode.inorder (delCasesRight x pc pk pv w up)
      = leftL up ++ RbNode.inorder w ++ (pk, pv) :: RbNode.inorder x ++ rightL up)
    ?_ ?_ ?_ ?_ ?_ ?_ ?_ ?_ ?_ ?_ ?_ ?_ ?_ ?_ ?_ ?_ ?_ ?_ ?_ ?_ ?_ <;>
    intros <;>
    first
      | (simp_all [delCasesLeft, delCasesRight, rbDeleteFixup,
          rebuild_inorder, leftL, rightL]
         done)
      | (rw [delCasesLeft.eq_def]
         simp_all [rebuild_inorder, leftL, rightL]
         done)
      | (rw [delCasesRight.eq_def]
         simp_all [rebuild_inorder, leftL, rightL]
         done)
      | (rw [rbDeleteFixup.eq_def]
         simp_all [rebuild_inorder, leftL, rightL]
         done)

theorem delMin_isSome : ∀ {t : RbNode α β}, t ≠ .nil → (delMin t).isSome := by
  intro t
  induction t with
  | nil => intro h; exact absurd rfl h
  | node c l k v r ihl ihr =>
    intro _
    cases l with
    | nil => simp [delMin]
    | node lc ll lk lv lr =>
      rw [delMin]
      have hs := ihl (by simp)
      cases hdm : delMin (.node lc ll lk lv lr) with
      | none => rw [hdm] at hs; simp at hs
      | some res =>
        obtain ⟨yc, yk, yv, x, q⟩ := res
        simp

theorem delMin_entries : ∀ {t : RbNode α β} {yc : Color} {yk : α} {yv : β}
    {x : RbNode α β} {q : Path α β},
    delMin t = some (yc, yk, yv, x, q) →
    leftL q = [] ∧ RbNode.inorder t = (yk, yv) :: (RbNode.inorder x ++ rightL q) := by
  intro t
  induction t with
  | nil => intro yc yk yv x q h; simp [delMin] at h
  | node c l k v r ihl ihr =>
    intro yc yk yv x q h
    cases l with
    | nil =>
      rw [delMin] at h
      cases h
      simp [leftL, rightL]
    | node lc ll lk lv lr =>
      rw [delMin] at h
      cases hdm : delMin (.node lc ll lk lv lr) with
      | none => rw [hdm] at h; simp at h
      | some res =>
        obtain ⟨yc2, yk2, yv2, x2, q2⟩ := res
        rw [hdm] at h
        simp only [Option.some.injEq, Prod.mk.injEq] at h
        obtain ⟨h1, h2, h3, h4, h5⟩ := h
        subst h1; subst h2; subst h3; subst h4; subst h5
        have ih := ihl hdm
        constructor
        · rw [leftL_pathApp, ih.1]
          simp [leftL]
        · rw [rightL_pathApp, inorder_node, ih.2]
          simp [rightL, leftL]

theorem delMin_minLoc : ∀ {t : RbNode α β} {yc : Color} {yk : α} {yv : β}
    {x : RbNode α β} {q : Path α β},
    delMin t = some (yc, yk, yv, x, q) →
    ∀ p : Path α β, rootEntry (minLoc t p).1 = some (yk, yv) := by
  intro t
  induction t with
  | nil => intro yc yk yv x q h; simp [delMin] at h
  | node c l k v r ihl ihr =>
    intro yc yk yv x q h p
    cases l with
    | nil =>
      rw [delMin] at h
      cases h
      simp [minLoc, rootEntry]
    | node lc ll lk lv lr =>
      rw [delMin] at h
      cases hdm : delMin (.node lc ll lk lv lr) with
      | none => rw [hdm] at h; simp at h
      | some res =>
        obtain ⟨yc2, yk2, yv2, x2, q2⟩ := res
        rw [hdm] at h
        simp only [Option.some.injEq, Prod.mk.injEq] at h
        obtain ⟨h1, h2, h3, h4, h5⟩ := h
        subst h1; subst h2; subst h3; subst h4; subst h5
        rw [minLoc]
        exact ihl hdm _

theorem delMin_pathBal : ∀ {t : RbNode α β} {ct : Color} {m : Nat},
    Balanced t ct m → ∀ {yc : Color} {yk : α} {yv : β} {x : RbNode α β} {q : Path α β},
    delMin t = some (yc, yk, yv, x, q) → ∀ {P : Path α β} {N : Nat},
    PathBal P m N → (ct = RED → TopBlackFrame P) →
    ∃ cx mx, Balanced x cx mx ∧
      ((yc = RED ∧ x = .nil ∧ PathBal (pathApp q P) 0 N) ∨
       (yc = BLACK ∧ PathBal (pathApp q P) (mx + 1) N)) := by
  intro t
  induction t with
  | nil => intro ct m hb yc yk yv x q h; simp [delMin] at h
  | node c l k v r ihl ihr =>
    intro ct m hb yc yk yv x q h P N hP hred
    cases l with
    | nil =>
      rw [delMin] at h
      cases h
      cases hb with
      | red hl hr =>
        cases hl
        cases hr with
        | nil => exact ⟨BLACK, 0, .nil, Or.inl ⟨rfl, rfl, by simpa [pathApp] using hP⟩⟩
      | black hl hr =>
        cases hl
        exact ⟨_, 0, hr, Or.inr ⟨rfl, by simpa [pathApp] using hP⟩⟩
    | node lc ll lk lv lr =>
      rw [delMin] at h
      cases hdm : delMin (.node lc ll lk lv lr) with
      | none => rw [hdm] at h; simp at h
      | some res =>
        obtain ⟨yc2, yk2, yv2, x2, q2⟩ := res
        rw [hdm] at h
        simp only [Option.some.injEq, Prod.mk.injEq] at h
        obtain ⟨h1, h2, h3, h4, h5⟩ := h
        subst h1; subst h2; subst h3; subst h4; subst h5
        rw [pathApp_assoc]
        cases hb with
        | red hl hr =>
          exact ihl hl hdm (.leftR hP (hred rfl) hr) (fun hh => absurd hh (by decide))
        | black hl hr =>
          exact ihl hl hdm (.leftB hP hr) (fun _ => rfl)

theorem deleteLoc_inorder (zc : Color) (zl : RbNode α β) (zk : α) (zv : β)
    (zr : RbNode α β) (p : Path α β) :
    RbNode.inorder (deleteLoc (.node zc zl zk zv zr) p)
      = leftL p ++ RbNode.inorder zl ++ RbNode.inorder zr ++ rightL p := by
  cases zl with
  | nil =>
    cases zr with
    | nil =>
      simp only [deleteLoc]
      split
      · simp [rbDeleteFixup_inorder]
      · simp [rebuild_inorder]
    | node rc rl rk rv rr =>
      simp only [deleteLoc]
      split
      · simp [rbDeleteFixup_inorder]
      · simp [rebuild_inorder]
  | node lc ll lk lv lr =>
    cases zr with
    | nil =>
      simp only [deleteLoc]
      split
      · simp [rbDeleteFixup_inorder]
      · simp [rebuild_inorder]
    | node rc rl rk rv rr =>
      cases hdm : delMin (.node rc rl rk rv rr) with
      | none =>
        have hs := delMin_isSome (t := .node rc rl rk rv rr) (by simp)
        rw [hdm] at hs
        simp at hs
      | some res =>
        obtain ⟨yc, yk, yv, x, q⟩ := res
        have hent := delMin_entries hdm
        simp only [deleteLoc, hdm]
        split
        · rw [rbDeleteFixup_inorder, leftL_pathApp, rightL_pathApp, hent.1]
          rw [show RbNode.inorder (.node rc rl rk rv rr)
              = (yk, yv) :: (RbNode.inorder x ++ rightL q) from hent.2]
          simp [leftL, rightL]
        · rw [rebuild_inorder, leftL_pathApp, rightL_pathApp, hent.1]
          rw [show RbNode.inorder (.node rc rl rk rv rr)
              = (yk, yv) :: (RbNode.inorder x ++ rightL q) from hent.2]
          simp [leftL, rightL]

theorem deleteLoc_balanced {z : RbNode α β} {p : Path α β} {N : Nat}
    (hT : Balanced (rebuild p z) BLACK N) (hz : z ≠ .nil) :
    ∃ M, Balanced (deleteLoc z p) BLACK M := by
  obtain ⟨nz, cz, hp, hbz, hred, houter⟩ := balanced_unbuild hT
  cases z with
  | nil => exact absurd rfl hz
  | node zc zl zk zv zr =>
    cases zl with
    | nil =>
      cases zr with
      | nil =>
        simp only [deleteLoc]
        cases hbz with
        | red hl hr =>
          cases hl
          split
          · next hzc => exact absurd hzc (by decide)
          · exact ⟨N, pathBal_rebuild_black hp .nil houter⟩
        | black hl hr =>
          cases hl
          split
          · exact rbDeleteFixup_balanced _ _ 0 N BLACK hp .nil houter
          · next hzc => exact absurd rfl hzc
      | node rc rl rk rv rr =>
        simp only [deleteLoc]
        cases hbz with
        | red hl hr =>
          cases hl
          cases hr
        | black hl hr =>
          cases hl
          split
          · exact rbDeleteFixup_balanced _ _ 0 N _ hp hr houter
          · next hzc => exact absurd rfl hzc
    | node lc ll lk lv lr =>
      cases zr with
      | nil =>
        simp only [deleteLoc]
        cases hbz with
        | red hl hr =>
          cases hr
          cases hl
        | black hl hr =>
          cases hr
          split
          · exact rbDeleteFixup_balanced _ _ 0 N _ hp hl houter
          · next hzc => exact absurd rfl hzc
      | node rc rl rk rv rr =>
        cases hbz with
        | red hl hr =>
          have hpne : p ≠ Path.root := topBlack_ne_root (hred rfl)
          cases hdm : delMin (.node rc rl rk rv rr) with
          | none =>
            have hs := delMin_isSome (t := .node rc rl rk rv rr) (by simp)
            rw [hdm] at hs
            simp at hs
          | some res =>
            obtain ⟨yc, yk, yv, x, q⟩ := res
            simp only [deleteLoc, hdm]
            have hP : PathBal (.right RED (.node lc ll lk lv lr) yk yv p) nz N := .rightR hp (hred rfl) hl
            obtain ⟨cx, mx, hx, hdisj⟩ :=
              delMin_pathBal hr hdm hP (fun hh => absurd hh (by decide))
            have hfr : outerFrameColor (.right RED (.node lc ll lk lv lr) yk yv p) = BLACK := by
              rw [ofc_right_cons hpne]
              exact houter
            have houterpx : outerFrameColor (pathApp q (.right RED (.node lc ll lk lv lr) yk yv p)) = BLACK := by
              rw [ofc_pathApp q (by simp)]
              exact hfr
            rcases hdisj with ⟨hycR, hxnil, hpb0⟩ | ⟨hycB, hpb⟩
            · subst hycR
              subst hxnil
              split
              · next hzc => exact absurd hzc (by decide)
              · exact ⟨N, pathBal_rebuild_black hpb0 .nil houterpx⟩
            · subst hycB
              split
              · exact rbDeleteFixup_balanced _ _ mx N cx hpb hx houterpx
              · next hzc => exact absurd rfl hzc
        | black hl hr =>
          cases hdm : delMin (.node rc rl rk rv rr) with
          | none =>
            have hs := delMin_isSome (t := .node rc rl rk rv rr) (by simp)
            rw [hdm] at hs
            simp at hs
          | some res =>
            obtain ⟨yc, yk, yv, x, q⟩ := res
            simp only [deleteLoc, hdm]
            have hP : PathBal (.right BLACK (.node lc ll lk lv lr) yk yv p) _ N := .rightB hp hl
            obtain ⟨cx, mx, hx, hdisj⟩ := delMin_pathBal hr hdm hP (fun _ => rfl)
            have hfr : outerFrameColor (.right BLACK (.node lc ll lk lv lr) yk yv p) = BLACK := by
              cases p with
              | root => rfl
              | left c2 k2 v2 r2 up2 => rw [ofc_right_cons (by simp)]; exact houter
              | right c2 l2 k2 v2 up2 => rw [ofc_right_cons (by simp)]; exact houter
            have houterpx : outerFrameColor (pathApp q (.right BLACK (.node lc ll lk lv lr) yk yv p)) = BLACK := by
              rw [ofc_pathApp q (by simp)]
              exact hfr
            rcases hdisj with ⟨hycR, hxnil, hpb0⟩ | ⟨hycB, hpb⟩
            · subst hycR
              subst hxnil
              split
              · next hzc => exact absurd hzc (by decide)
              · exact ⟨N, pathBal_rebuild_black hpb0 .nil houterpx⟩
            · subst hycB
              split
              · exact rbDeleteFixup_balanced _ _ mx N cx hpb hx houterpx
              · next hzc => exact absurd rfl hzc


theorem insertRoot_split (cmp : α → α → Int) (key : α) (value : β) (t : RbNode α β) :
    ∃ A B, RbNode.inorder (insertRoot cmp key value t) = A ++ (key, value) :: B
      ∧ A ++ B = RbNode.inorder t := by
  cases t with
  | nil => exact ⟨[], [], by simp [insertRoot], rfl⟩
  | node c l k v r =>
    refine ⟨leftL (insertDescend cmp key (.node c l k v r) .root),
            rightL (insertDescend cmp key (.node c l k v r) .root), ?_, ?_⟩
    · rw [insertRoot, rbInsertFixup_inorder]
      simp
    · have h2 := congrArg RbNode.inorder (insertDescend_rebuild cmp key (.node c l k v r) .root)
      rw [rebuild_inorder] at h2
      simpa [rebuild] using h2

theorem insertRoot_length (cmp : α → α → Int) (key : α) (value : β) (t : RbNode α β) :
    (RbNode.inorder (insertRoot cmp key value t)).length
      = (RbNode.inorder t).length + 1 := by
  obtain ⟨A, B, h1, h2⟩ := insertRoot_split cmp key value t
  rw [h1, ← h2]
  simp
  omega

theorem insertRoot_entries {cmp : α → α → Int} (hv : ValidCmp cmp) (key : α) (value : β)
    {t : RbNode α β} (hs : SortedEntries cmp (RbNode.inorder t)) :
    ∃ A B, RbNode.inorder (insertRoot cmp key value t) = A ++ (key, value) :: B
      ∧ A ++ B = RbNode.inorder t
      ∧ (∀ u ∈ A, 0 ≤ cmp key u.1) ∧ (∀ u ∈ B, cmp key u.1 < 0) := by
  cases t with
  | nil => exact ⟨[], [], by simp [insertRoot], rfl, by simp, by simp⟩
  | node c l k v r =>
    obtain ⟨A, B, h1, h2, h3, h4, h5⟩ := insertDescend_entries hv key (p := .root) hs
    refine ⟨A, B, ?_, ?_, h4, h5⟩
    · rw [insertRoot, rbInsertFixup_inorder, h1, h2]
      simp [leftL, rightL]
    · rw [← h3]

theorem insertRoot_sorted {cmp : α → α → Int} (hv : ValidCmp cmp) (key : α) (value : β)
    {t : RbNode α β} (hs : SortedEntries cmp (RbNode.inorder t)) :
    SortedEntries cmp (RbNode.inorder (insertRoot cmp key value t)) := by
  obtain ⟨A, B, h1, h2, h4, h5⟩ := insertRoot_entries hv key value hs
  rw [SortedEntries, h1]
  have hsAB : (A ++ B).Pairwise (entryLe cmp) := by
    rw [h2]
    exact hs
  have hparts := List.pairwise_append.mp hsAB
  refine List.pairwise_append.mpr ⟨hparts.1, ?_, ?_⟩
  · refine List.pairwise_cons.mpr ⟨fun u hu => ?_, hparts.2.1⟩
    exact le_of_lt (h5 u hu)
  · intro a ha b hb
    rcases List.mem_cons.mp hb with rfl | hb
    · exact (hv.le_iff a.1 key).mpr (h4 a ha)
    · exact hparts.2.2 a ha b hb

theorem deleteLoc_lists {zc : Color} {zl : RbNode α β} {zk : α} {zv : β}
    {zr : RbNode α β} {p : Path α β} :
    List.Sublist (RbNode.inorder (deleteLoc (.node zc zl zk zv zr) p))
        (RbNode.inorder (rebuild p (.node zc zl zk zv zr)))
    ∧ (RbNode.inorder (rebuild p (.node zc zl zk zv zr))).length
        = (RbNode.inorder (deleteLoc (.node zc zl zk zv zr) p)).length + 1 := by
  rw [deleteLoc_inorder, rebuild_inorder, inorder_node]
  constructor
  · simp only [List.append_assoc, List.cons_append]
    exact (List.Sublist.refl _).append
      ((List.Sublist.refl _).append (List.sublist_cons_self _ _))
  · simp
    omega

theorem testAux_ok {t : RbNode α β} {c : Color} {n : Nat} (h : Balanced t c n) :
    testAux false t = (n + 1, 0, true)
    ∧ (c = BLACK → testAux true t = (n + 1, 0, true)) := by
  induction h with
  | nil => exact ⟨rfl, fun _ => rfl⟩
  | red hl hr ihl ihr =>
    refine ⟨?_, fun hc => absurd hc (by decide)⟩
    rw [testAux]
    simp [ihl.1, ihr.1, hl.getColor_eq, hr.getColor_eq]
  | black hl hr ihl ihr =>
    constructor
    · rw [testAux]
      simp [ihl.1, ihr.1]
    · intro _
      rw [testAux]
      simp [ihl.1, ihr.1]

theorem isRbTree_of_balanced {t : RbTree α β} (h : ∃ N, Balanced t.root BLACK N) :
    t.IsRbTree = (true, none) := by
  obtain ⟨N, hb⟩ := h
  rw [RbTree.IsRbTree, (testAux_ok hb).2 rfl]

theorem reach_wf {t : RbTree α β} (h : Reach t) :
    (∃ N, Balanced t.root BLACK N)
    ∧ t.size = ((RbNode.inorder t.root).length : Int)
    ∧ (ValidCmp t.keyCmp → SortedEntries t.keyCmp (RbNode.inorder t.root)) := by
  induction h with
  | new cmp => exact ⟨⟨0, .nil⟩, rfl, fun _ => List.Pairwise.nil⟩
  | insert k v hr ih =>
    obtain ⟨⟨N, hb⟩, hsz, hso⟩ := ih
    refine ⟨insertRoot_balanced hb, ?_, fun hv => insertRoot_sorted hv k v (hso hv)⟩
    show _ + 1 = _
    rw [show (RbTree.Insert _ k v).root = insertRoot _ k v _ from rfl,
      insertRoot_length]
    push_cast
    omega
  | delete_nil hr ih => exact ih
  | @delete α2 β2 t2 z p hr hroot hz ih =>
    obtain ⟨⟨N, hb⟩, hsz, hso⟩ := ih
    cases z with
    | nil => exact absurd rfl hz
    | node zc zl zk zv zr =>
      simp only [RbTree.Delete]
      have hT : Balanced (rebuild p (.node zc zl zk zv zr)) BLACK N := by
        rw [hroot]
        exact hb
      have hl := @deleteLoc_lists α2 β2 zc zl zk zv zr p
      refine ⟨?_, ?_, ?_⟩
      · exact deleteLoc_balanced hT (by simp)
      · show t2.size - 1 = _
        have := hl.2
        rw [hroot] at this
        rw [hsz]
        push_cast
        omega
      · intro hv
        have hsub := hl.1
        rw [hroot] at hsub
        exact List.Pairwise.sublist hsub (hso hv)


theorem minLoc_rem : ∀ (t : RbNode α β) (p : Path α β), t ≠ .nil →
    remEntries (minLoc t p) = RbNode.inorder t ++ rightL p := by
  intro t
  induction t with
  | nil => intro p h; exact absurd rfl h
  | node c l k v r ihl ihr =>
    intro p _
    cases l with
    | nil => simp [minLoc, remEntries, rightL]
    | node lc ll lk lv lr =>
      rw [minLoc, ihl _ (by simp)]
      simp [rightL]

theorem minLoc_rebuild : ∀ (t : RbNode α β) (p : Path α β),
    rebuild (minLoc t p).2 (minLoc t p).1 = rebuild p t := by
  intro t
  induction t with
  | nil => intro p; rfl
  | node c l k v r ihl ihr =>
    intro p
    cases l with
    | nil => rfl
    | node lc ll lk lv lr => rw [minLoc, ihl]; rfl

theorem minLoc_ne_nil : ∀ (t : RbNode α β) (p : Path α β), t ≠ .nil →
    (minLoc t p).1 ≠ .nil := by
  intro t
  induction t with
  | nil => intro p h; exact absurd rfl h
  | node c l k v r ihl ihr =>
    intro p _
    cases l with
    | nil => simp [minLoc]
    | node lc ll lk lv lr => rw [minLoc]; exact ihl _ (by simp)

theorem ascendRight_rem : ∀ (p : Path α β) (t : RbNode α β),
    (match ascendRight t p with
     | none => rightL p = []
     | some l2 => remEntries l2 = rightL p ∧ rebuild l2.2 l2.1 = rebuild p t
         ∧ l2.1 ≠ .nil) := by
  intro p
  induction p with
  | root => intro t; simp [ascendRight, rightL]
  | left c k v r up ih =>
    intro t
    simp only [ascendRight]
    exact ⟨by simp [remEntries, rightL], rfl, by simp⟩
  | right c l k v up ih =>
    intro t
    rw [ascendRight]
    have := ih (.node c l k v t)
    cases h2 : ascendRight (RbNode.node c l k v t) up with
    | none => rw [h2] at this; simpa [rightL] using this
    | some l2 =>
      rw [h2] at this
      exact ⟨by rw [this.1]; rfl, this.2.1, this.2.2⟩

theorem succLoc_rem {c : Color} {l : RbNode α β} {k : α} {v : β} {r : RbNode α β}
    {p : Path α β} :
    (match succLoc (.node c l k v r, p) with
     | none => RbNode.inorder r ++ rightL p = []
     | some l2 => remEntries l2 = RbNode.inorder r ++ rightL p
         ∧ rebuild l2.2 l2.1 = rebuild p (.node c l k v r) ∧ l2.1 ≠ .nil) := by
  cases r with
  | nil =>
    have h := @ascendRight_rem α β p (.node c l k v .nil)
    rw [show succLoc (.node c l k v .nil, p) = ascendRight (.node c l k v .nil) p from rfl]
    cases h2 : ascendRight (RbNode.node c l k v .nil) p with
    | none => rw [h2] at h; simpa using h
    | some l2 => rw [h2] at h; simpa using h
  | node rc rl rk rv rr =>
    rw [show succLoc (.node c l k v (.node rc rl rk rv rr), p)
        = some (minLoc (.node rc rl rk rv rr) (.right c l k v p)) from rfl]
    refine ⟨?_, ?_, minLoc_ne_nil _ _ (by simp)⟩
    · rw [minLoc_rem _ _ (by simp)]
      simp [rightL]
    · rw [minLoc_rebuild]
      rfl

theorem traversalLoop_eq {f : α → β → Bool} : ∀ (fuel : Nat) (l : Loc α β),
    l.1 ≠ .nil → (remEntries l).length ≤ fuel →
    traversalLoop f fuel (some l) = specVisited f (remEntries l) := by
  intro fuel
  induction fuel with
  | zero =>
    intro l hn hlen
    obtain ⟨t, p⟩ := l
    cases t with
    | nil => exact absurd rfl hn
    | node c tl k v tr => simp [remEntries] at hlen
  | succ fuel ih =>
    intro l hn hlen
    obtain ⟨t, p⟩ := l
    cases t with
    | nil => exact absurd rfl hn
    | node c tl k v tr =>
      simp only [traversalLoop, remEntries, specVisited]
      have hs := succLoc_rem (c := c) (l := tl) (k := k) (v := v) (r := tr) (p := p)
      cases h2 : succLoc (.node c tl k v tr, p) with
      | none =>
        rw [h2] at hs
        rcases List.append_eq_nil.mp hs with ⟨h3, h4⟩
        cases fuel <;> simp [traversalLoop, specVisited, h3, h4]
      | some l2 =>
        rw [h2] at hs
        have hlen2 : (remEntries l2).length ≤ fuel := by
          rw [hs.1]
          simpa [remEntries] using hlen
        simp [ih l2 hs.2.2 hlen2, hs.1]

theorem traversal_spec (t : RbTree α β) (f : α → β → Bool) :
    t.Traversal f = specVisited f (RbNode.inorder t.root) := by
  rw [RbTree.Traversal]
  cases ht : t.root with
  | nil => simp [First, traversalLoop, specVisited]
  | node c l k v r =>
    rw [First]
    rw [traversalLoop_eq _ _ (minLoc_ne_nil _ _ (by simp))
      (by rw [minLoc_rem _ _ (by simp)]; simp [rightL])]
    rw [minLoc_rem _ _ (by simp)]
    simp [rightL]

theorem predLoc_minLoc : ∀ (t : RbNode α β) (q : Path α β), t ≠ .nil →
    predLoc (minLoc t q) = ascendLeft t q := by
  intro t
  induction t with
  | nil => intro q h; exact absurd rfl h
  | node c l k v r ihl ihr =>
    intro q _
    cases l with
    | nil => rfl
    | node lc ll lk lv lr =>
      rw [minLoc, ihl _ (by simp)]
      rfl

theorem predLoc_ascendRight : ∀ (p : Path α β) (x : RbNode α β) (l2 : Loc α β),
    x ≠ .nil → ascendRight x p = some l2 → predLoc l2 = some (maxLoc x p) := by
  intro p
  induction p with
  | root => intro x l2 hx h; simp [ascendRight] at h
  | left c k v r up ih =>
    intro x l2 hx h
    rw [ascendRight] at h
    cases h
    cases x with
    | nil => exact absurd rfl hx
    | node xc xl xk xv xr => rfl
  | right c l k v up ih =>
    intro x l2 hx h
    rw [ascendRight] at h
    have := ih (.node c l k v x) l2 (by simp) h
    rw [this]
    cases x with
    | nil => exact absurd rfl hx
    | node xc xl xk xv xr => rw [show maxLoc (.node c l k v (.node xc xl xk xv xr)) up
        = maxLoc (.node xc xl xk xv xr) (.right c l k v up) from rfl]

theorem predLoc_succLoc {l l2 : Loc α β} (h : succLoc l = some l2) :
    predLoc l2 = some l := by
  obtain ⟨t, p⟩ := l
  cases t with
  | nil => simp [succLoc] at h
  | node c tl k v tr =>
    cases tr with
    | node rc rl rk rv rr =>
      rw [show succLoc (.node c tl k v (.node rc rl rk rv rr), p)
          = some (minLoc (.node rc rl rk rv rr) (.right c tl k v p)) from rfl] at h
      cases h
      rw [predLoc_minLoc _ _ (by simp)]
      rfl
    | nil =>
      rw [show succLoc (.node c tl k v .nil, p)
          = ascendRight (.node c tl k v .nil) p from rfl] at h
      rw [predLoc_ascendRight p _ l2 (by simp) h]
      rfl

/-! ## Round-trip to the empty tree -/

theorem validCmp_refl {cmp : α → α → Int} (hv : ValidCmp cmp) (a : α) : cmp a a = 0 := by
  have h := hv.oriented a a
  omega

theorem validCmp_zero_symm {cmp : α → α → Int} (hv : ValidCmp cmp) {a b : α}
    (h : cmp a b = 0) : cmp b a = 0 := by
  have h1 := hv.oriented a b
  have h2 := hv.oriented b a
  omega

theorem inorder_eq_nil {t : RbNode α β} (h : RbNode.inorder t = []) : t = .nil := by
  cases t with
  | nil => rfl
  | node c l k v r => simp at h

theorem key_eq_of_pairwise {cmp : α → α → Int} (hv : ValidCmp cmp) :
    ∀ {l : List α}, l.Pairwise (fun a b => cmp a b ≠ 0) →
      ∀ {a b : α}, a ∈ l → b ∈ l → cmp a b = 0 → a = b := by
  intro l
  induction l with
  | nil => intro _ a b ha _ _; exact absurd ha (List.not_mem_nil a)
  | cons x xs ih =>
    intro hl a b ha hb hab
    have hx := (List.pairwise_cons.mp hl).1
    have htl := (List.pairwise_cons.mp hl).2
    rcases List.mem_cons.mp ha with rfl | ha2
    · rcases List.mem_cons.mp hb with rfl | hb2
      · rfl
      · exact absurd hab (hx b hb2)
    · rcases List.mem_cons.mp hb with rfl | hb2
      · exact absurd (validCmp_zero_symm hv hab) (hx a ha2)
      · exact ih htl ha2 hb2 hab

theorem find_first_le {cmp : α → α → Int} (hv : ValidCmp cmp) {key : α} :
    ∀ {L : List (α × β)}, SortedEntries cmp L →
      ∀ {e0 : α × β}, L.find? (fun e => decide (cmp key e.1 ≤ 0)) = some e0 →
      ∀ {x : α × β}, x ∈ L → cmp key x.1 ≤ 0 → cmp e0.1 x.1 ≤ 0 := by
  intro L hL
  induction L with
  | nil => intro e0 h; simp at h
  | cons hd tl ih =>
    intro e0 h x hx hpx
    have hpair := List.pairwise_cons.mp hL
    by_cases hp : cmp key hd.1 ≤ 0
    · rw [List.find?_cons_of_pos _ (by simpa using hp)] at h
      cases h
      rcases List.mem_cons.mp hx with rfl | hx2
      · exact le_of_eq (validCmp_refl hv _)
      · exact hpair.1 x hx2
    · rw [List.find?_cons_of_neg _ (by simpa using hp)] at h
      rcases List.mem_cons.mp hx with rfl | hx2
      · exact absurd hpx hp
      · exact ih hpair.2 h hx2 hpx

theorem findFirstNode_loc {cmp : α → α → Int} {key : α} {t : RbNode α β} {res : Loc α β}
    (h : findFirstNode cmp key t = some res) :
    rebuild res.2 res.1 = t ∧ res.1 ≠ .nil := by
  rw [findFirstNode] at h
  split at h
  · exact absurd h (by simp)
  · next heq =>
    split at h
    · cases h
      exact findLowerBoundNode_loc heq
    · exact absurd h (by simp)
  · exact absurd h (by simp)

theorem findFirstNode_mem {cmp : α → α → Int} (hv : ValidCmp cmp) {t : RbNode α β}
    (hs : SortedEntries cmp (RbNode.inorder t)) (key : α)
    (hmem : ∃ e ∈ RbNode.inorder t, cmp e.1 key = 0) :
    ∃ zc zl zk zv zr p, findFirstNode cmp key t = some (.node zc zl zk zv zr, p)
      ∧ rebuild p (.node zc zl zk zv zr) = t ∧ cmp zk key = 0
      ∧ (zk, zv) ∈ RbNode.inorder t := by
  obtain ⟨e, he, he0⟩ := hmem
  have hkey : cmp key e.1 = 0 := validCmp_zero_symm hv he0
  have hfind := findLowerBoundNode_find hv key (t := t) (p := .root) hs
  have hsome : ((RbNode.inorder t).find? (fun e => decide (cmp key e.1 ≤ 0))).isSome := by
    rw [List.find?_isSome]
    exact ⟨e, he, by simpa using le_of_eq hkey⟩
  obtain ⟨e0, he0f⟩ := Option.isSome_iff_exists.mp hsome
  rw [he0f] at hfind
  cases hflbn : findLowerBoundNode cmp key t Path.root with
  | none => rw [hflbn] at hfind; simp at hfind
  | some res =>
    obtain ⟨z, p⟩ := res
    rw [hflbn] at hfind
    cases z with
    | nil => simp [rootEntry] at hfind
    | node zc zl zk zv zr =>
      have hent : ((zk, zv) : α × β) = e0 := by
        simpa [rootEntry] using hfind
      have hloc := findLowerBoundNode_loc hflbn
      have hmem0 : e0 ∈ RbNode.inorder t := List.mem_of_find?_eq_some he0f
      have hple : cmp key e0.1 ≤ 0 := by
        have := List.find?_some he0f
        simpa using this
      have h1 : cmp e0.1 e.1 ≤ 0 :=
        find_first_le hv hs he0f he (le_of_eq hkey)
      have h2 : cmp e0.1 key ≤ 0 :=
        hv.le_trans _ _ _ h1 (le_of_eq he0)
      have h3 : 0 ≤ cmp e0.1 key := (hv.le_iff key e0.1).mp hple
      have hzk : cmp zk key = 0 := by
        rw [show zk = e0.1 from congrArg Prod.fst hent]
        omega
      refine ⟨zc, zl, zk, zv, zr, p, ?_, ?_, hzk, ?_⟩
      · rw [findFirstNode, hflbn]
        simp [hzk]
      · simpa [rebuild] using hloc.1
      · rw [show ((zk, zv) : α × β) = e0 from hent]
        exact hmem0

theorem foldl_insert_inv (cmp : α → α → Int) :
    ∀ (es : List (α × β)) (t : RbTree α β), Reach t → t.keyCmp = cmp →
      Reach (es.foldl (fun t e => t.Insert e.1 e.2) t)
      ∧ (es.foldl (fun t e => t.Insert e.1 e.2) t).keyCmp = cmp
      ∧ ((RbNode.inorder (es.foldl (fun t e => t.Insert e.1 e.2) t).root).map Prod.fst).Perm
          ((RbNode.inorder t.root).map Prod.fst ++ es.map Prod.fst) := by
  intro es
  induction es with
  | nil => intro t hr hc; exact ⟨hr, hc, by simp⟩
  | cons e es ih =>
    intro t hr hc
    have step := ih (t.Insert e.1 e.2) (hr.insert e.1 e.2) hc
    refine ⟨step.1, step.2.1, ?_⟩
    obtain ⟨A, B, h1, h2⟩ := insertRoot_split t.keyCmp e.1 e.2 t.root
    have hkeys : ((RbNode.inorder (t.Insert e.1 e.2).root).map Prod.fst).Perm
        (e.1 :: (RbNode.inorder t.root).map Prod.fst) := by
      rw [show (t.Insert e.1 e.2).root = insertRoot t.keyCmp e.1 e.2 t.root from rfl, h1, ← h2]
      simpa using (@List.perm_middle (α × β) (e.1, e.2) A B).map Prod.fst
    rw [List.foldl_cons]
    refine step.2.2.trans ?_
    refine (hkeys.append_right _).trans ?_
    simpa using (@List.perm_middle α e.1 ((RbNode.inorder t.root).map Prod.fst)
      (es.map Prod.fst)).symm

theorem insertListK_spec (cmp : α → α → Int) (es : List (α × β)) :
    Reach (insertListK cmp es) ∧ (insertListK cmp es).keyCmp = cmp
    ∧ ((RbNode.inorder (insertListK cmp es).root).map Prod.fst).Perm (es.map Prod.fst) := by
  have h := foldl_insert_inv cmp es (New cmp) (Reach.new cmp) rfl
  exact ⟨h.1, h.2.1, by simpa [New] using h.2.2⟩

theorem foldl_delete_empties {cmp : α → α → Int} (hv : ValidCmp cmp) :
    ∀ (ks : List α) (t : RbTree α β), Reach t → t.keyCmp = cmp →
      ((RbNode.inorder t.root).map Prod.fst).Perm ks →
      ks.Pairwise (fun a b => cmp a b ≠ 0) →
      (deleteListK t ks).root = .nil ∧ (deleteListK t ks).size = 0 := by
  intro ks
  induction ks with
  | nil =>
    intro t hr _ hperm _
    have hkeys : (RbNode.inorder t.root).map Prod.fst = [] := hperm.eq_nil
    have hnil : t.root = .nil := inorder_eq_nil (List.map_eq_nil_iff.mp hkeys)
    have hsz := (reach_wf hr).2.1
    rw [hnil] at hsz
    refine ⟨hnil, ?_⟩
    rw [show deleteListK t [] = t from rfl, hsz]
    rfl
  | cons dk rest ih =>
    intro t hr hc hperm hdist
    have hw := reach_wf hr
    have hsorted : SortedEntries cmp (RbNode.inorder t.root) := by
      have h := hw.2.2 (by rw [hc]; exact hv)
      rwa [hc] at h
    have hdkmem : dk ∈ (RbNode.inorder t.root).map Prod.fst :=
      hperm.symm.mem_iff.mp (List.mem_cons_self dk rest)
    obtain ⟨e, he, hek⟩ := List.mem_map.mp hdkmem
    obtain ⟨zc, zl, zk, zv, zr, p, hff, hrebuild, hzk, hzmem⟩ :=
      findFirstNode_mem hv hsorted dk ⟨e, he, by rw [hek]; exact validCmp_refl hv dk⟩
    have hfn : t.FindNode dk = some (.node zc zl zk zv zr, p) := by
      rw [RbTree.FindNode, hc]
      exact hff
    have hstep : deleteListK t (dk :: rest)
        = deleteListK (t.Delete (some (.node zc zl zk zv zr, p))) rest := by
      simp only [deleteListK, List.foldl_cons]
      rw [hfn]
    set t2 := t.Delete (some (.node zc zl zk zv zr, p)) with ht2
    have hr2 : Reach t2 := hr.delete hrebuild (by simp)
    have hc2 : t2.keyCmp = cmp := hc
    have hin2 : RbNode.inorder t2.root
        = leftL p ++ RbNode.inorder zl ++ RbNode.inorder zr ++ rightL p := by
      rw [ht2]
      simp only [RbTree.Delete]
      exact deleteLoc_inorder zc zl zk zv zr p
    have hin1 : RbNode.inorder t.root
        = (leftL p ++ RbNode.inorder zl) ++ ((zk, zv) : α × β)
            :: (RbNode.inorder zr ++ rightL p) := by
      rw [← hrebuild, rebuild_inorder]
      simp
    have hassoc : (leftL p ++ RbNode.inorder zl) ++ (RbNode.inorder zr ++ rightL p)
        = leftL p ++ RbNode.inorder zl ++ RbNode.inorder zr ++ rightL p := by
      simp [List.append_assoc]
    have hentperm : (RbNode.inorder t.root).Perm
        (((zk, zv) : α × β) :: RbNode.inorder t2.root) := by
      rw [hin1, hin2, ← hassoc]
      exact @List.perm_middle (α × β) (zk, zv) (leftL p ++ RbNode.inorder zl)
        (RbNode.inorder zr ++ rightL p)
    have hkeyperm : ((RbNode.inorder t.root).map Prod.fst).Perm
        (zk :: (RbNode.inorder t2.root).map Prod.fst) := by
      simpa using hentperm.map Prod.fst
    have hsymm : ∀ a b : α, cmp a b ≠ 0 → cmp b a ≠ 0 := by
      intro a b hab hba
      exact hab (validCmp_zero_symm hv hba)
    have hdist1 : ((RbNode.inorder t.root).map Prod.fst).Pairwise
        (fun a b => cmp a b ≠ 0) :=
      (hperm.pairwise_iff (fun hx => hsymm _ _ hx)).mpr hdist
    have hzkdk : zk = dk :=
      key_eq_of_pairwise hv hdist1
        (List.mem_map.mpr ⟨(zk, zv), hzmem, rfl⟩) hdkmem hzk
    have hrest : ((RbNode.inorder t2.root).map Prod.fst).Perm rest := by
      have h1 : (zk :: (RbNode.inorder t2.root).map Prod.fst).Perm (dk :: rest) :=
        hkeyperm.symm.trans hperm
      rw [hzkdk] at h1
      exact h1.cons_inv
    rw [hstep]
    exact ih t2 hr2 hc2 hrest (List.Pairwise.of_cons hdist)

/-! ## Iterator round-trip -/

theorem iter_next_chain {t : RbTree α β} : ∀ (j : Nat), j < (RbNode.inorder t.root).length →
    ∃ l : Loc α β, (RbTreeIterator.Next)^[j] t.IterFirst = ⟨some l⟩ ∧ l.1 ≠ .nil
      ∧ (remEntries l).length + j = (RbNode.inorder t.root).length := by
  intro j
  induction j with
  | zero =>
    intro hj
    cases ht : t.root with
    | nil => rw [ht] at hj; simp at hj
    | node c l k v r =>
      refine ⟨minLoc (.node c l k v r) .root, ?_, minLoc_ne_nil _ _ (by simp), ?_⟩
      · rw [Function.iterate_zero_apply, RbTree.IterFirst, ht, NewIterator, First]
      · rw [minLoc_rem _ _ (by simp)]
        simp [rightL]
  | succ j ih =>
    intro hj
    obtain ⟨l, hl, hn, hlen⟩ := ih (Nat.lt_of_succ_lt hj)
    obtain ⟨ft, fp⟩ := l
    cases ft with
    | nil => exact absurd rfl hn
    | node fc fl fk fv fr =>
      have hs := succLoc_rem (c := fc) (l := fl) (k := fk) (v := fv) (r := fr) (p := fp)
      cases h2 : succLoc (.node fc fl fk fv fr, fp) with
      | none =>
        rw [h2] at hs
        exfalso
        have hs2 : RbNode.inorder fr ++ rightL fp = [] := hs
        rw [remEntries] at hlen
        rcases List.append_eq_nil.mp hs2 with ⟨h3, h4⟩
        rw [h3, h4] at hlen
        simp at hlen
        omega
      | some l2 =>
        rw [h2] at hs
        refine ⟨l2, ?_, hs.2.2, ?_⟩
        · rw [Function.iterate_succ_apply', hl]
          simp only [RbTreeIterator.Next]
          rw [h2]
        · rw [hs.1]
          rw [remEntries] at hlen
          simp at hlen ⊢
          omega

theorem prev_next_cancel : ∀ (m : Nat) (it : RbTreeIterator α β),
    (∃ l : Loc α β, (RbTreeIterator.Next)^[m] it = ⟨some l⟩) →
    (RbTreeIterator.Prev)^[m] ((RbTreeIterator.Next)^[m] it) = it := by
  intro m
  induction m with
  | zero => intro it _; rfl
  | succ m ih =>
    intro it hex
    obtain ⟨l, hl⟩ := hex
    have hm : ∃ lm : Loc α β, (RbTreeIterator.Next)^[m] it = ⟨some lm⟩
        ∧ succLoc lm = some l := by
      rw [Function.iterate_succ_apply'] at hl
      cases hit : (RbTreeIterator.Next)^[m] it with
      | mk nodeOpt =>
        rw [hit] at hl
        cases nodeOpt with
        | none => simp [RbTreeIterator.Next] at hl
        | some lm =>
          simp only [RbTreeIterator.Next, RbTreeIterator.mk.injEq] at hl
          exact ⟨lm, rfl, hl⟩
    obtain ⟨lm, hlm, hsucc⟩ := hm
    have hprev : RbTreeIterator.Prev (⟨some l⟩ : RbTreeIterator α β) = ⟨some lm⟩ := by
      simp only [RbTreeIterator.Prev]
      rw [predLoc_succLoc hsucc]
    rw [hl, Function.iterate_succ_apply, hprev, ← hlm]
    exact ih it ⟨lm, hlm⟩

theorem iterFirst_key (t : RbTree α β) :
    (t.IterFirst).Key = ((RbNode.inorder t.root).map Prod.fst).head? := by
  cases ht : t.root with
  | nil => rw [RbTree.IterFirst, ht]; rfl
  | node c l k v r =>
    rw [RbTree.IterFirst, ht, First, NewIterator]
    have hrem := minLoc_rem (.node c l k v r) .root (by simp)
    have hne := minLoc_ne_nil (.node c l k v r) .root (by simp)
    rcases hml : minLoc (RbNode.node c l k v r) Path.root with ⟨ft, fp⟩
    rw [hml] at hrem hne
    cases ft with
    | nil => exact absurd rfl hne
    | node fc fl fk fv fr =>
      simp only [remEntries, rightL, List.append_nil] at hrem
      rw [← hrem]
      simp [RbTreeIterator.Key]

/-! ## Claim theorems -/

/-- Claim C1: for every sequence of `Insert`/`Delete` calls starting from
`New` (each deleted handle being a node of the current tree, or nil),
`IsRbTree` returns ok after the sequence completes: the five red-black
properties hold after every public mutation. -/
theorem claim_invariants_hold {t : RbTree α β} (h : Reach t) :
    t.IsRbTree = (true, none) :=
  isRbTree_of_balanced (reach_wf h).1

theorem claim_invariants_hold_witness :
    (((New intCmp).Insert 1 (5 : Int)).Insert 2 7).IsRbTree = (true, none) :=
  claim_invariants_hold (Reach.insert 2 7 (Reach.insert 1 5 (Reach.new intCmp)))

/-- Claim C2: on every tree reachable by `Insert`/`Delete` under a valid
comparator, `Traversal` invokes the callback once per live entry in
non-decreasing key order (the visited sequence is the in-order entry list,
which is sorted under the comparator) and stops early iff the callback
returns false (`specVisited` is that early-stopping visit, modelled from
the spec). -/
theorem claim_traversal_ascending {t : RbTree α β} (h : Reach t)
    (hv : ValidCmp t.keyCmp) (f : α → β → Bool) :
    t.Traversal f = specVisited f (RbNode.inorder t.root)
    ∧ SortedEntries t.keyCmp (RbNode.inorder t.root) :=
  ⟨traversal_spec t f, (reach_wf h).2.2 hv⟩

theorem claim_traversal_ascending_witness :
    ((((New intCmp).Insert 2 (20 : Int)).Insert 1 10).Traversal (fun k _ => decide (k < 2))
        = specVisited (fun k _ => decide (k < 2))
            (RbNode.inorder (((New intCmp).Insert 2 (20 : Int)).Insert 1 10).root))
    ∧ SortedEntries (((New intCmp).Insert 2 (20 : Int)).Insert 1 10).keyCmp
        (RbNode.inorder (((New intCmp).Insert 2 (20 : Int)).Insert 1 10).root) :=
  claim_traversal_ascending (Reach.insert 1 10 (Reach.insert 2 20 (Reach.new intCmp)))
    validCmp_intCmp (fun k _ => decide (k < 2))

/-- Claim C3: `Insert(key, value)` always adds exactly one new node — on a
sorted tree the new in-order sequence is the old one with `(key, value)`
inserted after every entry with key `<=` key (ties descend right, no
replace-on-duplicate) and before every strictly greater entry — the entry
count and `Size` grow by exactly one, and on the empty tree the new node
becomes the root, colored BLACK immediately (no fixup runs: the result is
directly the black singleton). -/
theorem claim_insert_adds_one {t : RbTree α β} (key : α) (value : β)
    (hv : ValidCmp t.keyCmp) (hs : SortedEntries t.keyCmp (RbNode.inorder t.root)) :
    (∃ A B, RbNode.inorder (t.Insert key value).root = A ++ (key, value) :: B
       ∧ A ++ B = RbNode.inorder t.root
       ∧ (∀ u ∈ A, 0 ≤ t.keyCmp key u.1) ∧ (∀ u ∈ B, t.keyCmp key u.1 < 0))
    ∧ (RbNode.inorder (t.Insert key value).root).length
        = (RbNode.inorder t.root).length + 1
    ∧ (t.Insert key value).Size = t.Size + 1
    ∧ (t.root = .nil → (t.Insert key value).root = .node BLACK .nil key value .nil) := by
  refine ⟨insertRoot_entries hv key value hs,
    insertRoot_length t.keyCmp key value t.root, rfl, ?_⟩
  intro hnil
  show insertRoot t.keyCmp key value t.root = _
  rw [hnil]
  rfl

theorem claim_insert_adds_one_witness :
    (ValidCmp ((New intCmp).Insert 1 (5 : Int)).keyCmp
      ∧ SortedEntries ((New intCmp).Insert 1 (5 : Int)).keyCmp
          (RbNode.inorder ((New intCmp).Insert 1 (5 : Int)).root))
    ∧ ((∃ A B, RbNode.inorder (((New intCmp).Insert 1 (5 : Int)).Insert 1 9).root
          = A ++ ((1 : Int), (9 : Int)) :: B
        ∧ A ++ B = RbNode.inorder ((New intCmp).Insert 1 (5 : Int)).root
        ∧ (∀ u ∈ A, 0 ≤ ((New intCmp).Insert 1 (5 : Int)).keyCmp 1 u.1)
        ∧ (∀ u ∈ B, ((New intCmp).Insert 1 (5 : Int)).keyCmp 1 u.1 < 0))
      ∧ (RbNode.inorder (((New intCmp).Insert 1 (5 : Int)).Insert 1 9).root).length
          = (RbNode.inorder ((New intCmp).Insert 1 (5 : Int)).root).length + 1
      ∧ (((New intCmp).Insert 1 (5 : Int)).Insert 1 9).Size
          = ((New intCmp).Insert 1 (5 : Int)).Size + 1
      ∧ (((New intCmp).Insert 1 (5 : Int)).root = .nil →
          (((New intCmp).Insert 1 (5 : Int)).Insert 1 9).root
            = .node BLACK .nil 1 9 .nil)) :=
  ⟨⟨validCmp_intCmp, by decide⟩,
   claim_insert_adds_one 1 9 validCmp_intCmp (by decide)⟩

/-- Claim C4: `Delete` on the nil handle is a no-op; on a node `z` with two
non-nil children the physically unlinked node is the successor
`y = successor(z)` (the minimum of the right subtree), `y`'s key and value
are copied into `z`'s position (the rebuilt frame at `z` carries `yk`,
`yv`), `Size` decreases by exactly one, and the delete fixup runs iff the
spliced node `y` was BLACK. -/
theorem claim_delete_semantics (t : RbTree α β) :
    t.Delete none = t
    ∧ (∀ (zc : Color) (zl : RbNode α β) (zk : α) (zv : β) (zr : RbNode α β) (p : Path α β),
        zl ≠ .nil → zr ≠ .nil →
        ∃ yc yk yv x q,
          delMin zr = some (yc, yk, yv, x, q)
          ∧ succLoc (.node zc zl zk zv zr, p) = some (minLoc zr (.right zc zl zk zv p))
          ∧ rootEntry (minLoc zr (.right zc zl zk zv p)).1 = some (yk, yv)
          ∧ (t.Delete (some (.node zc zl zk zv zr, p))).root
              = (if yc = BLACK then rbDeleteFixup x (pathApp q (.right zc zl yk yv p))
                 else rebuild (pathApp q (.right zc zl yk yv p)) x)
          ∧ (t.Delete (some (.node zc zl zk zv zr, p))).Size = t.Size - 1) := by
  refine ⟨rfl, ?_⟩
  intro zc zl zk zv zr p hzl hzr
  cases zl with
  | nil => exact absurd rfl hzl
  | node lc ll lk lv lr =>
    cases zr with
    | nil => exact absurd rfl hzr
    | node rc rl rk rv rr =>
      have hds := delMin_isSome (t := .node rc rl rk rv rr) (by simp)
      obtain ⟨res, hdm⟩ := Option.isSome_iff_exists.mp hds
      obtain ⟨yc, yk, yv, x, q⟩ := res
      refine ⟨yc, yk, yv, x, q, hdm, rfl, delMin_minLoc hdm _, ?_, rfl⟩
      simp only [RbTree.Delete]
      simp only [deleteLoc, hdm]

theorem claim_delete_semantics_witness :
    ((⟨.node BLACK (.node RED .nil 1 5 .nil) 2 6 (.node RED .nil 3 7 .nil), 3, intCmp⟩
        : RbTree Int Int).Delete none
      = ⟨.node BLACK (.node RED .nil 1 5 .nil) 2 6 (.node RED .nil 3 7 .nil), 3, intCmp⟩)
    ∧ (∃ yc yk yv x q,
        delMin ((.node RED .nil 3 7 .nil) : RbNode Int Int) = some (yc, yk, yv, x, q)
        ∧ succLoc ((.node BLACK (.node RED .nil 1 5 .nil) 2 6 (.node RED .nil 3 7 .nil),
              Path.root) : Loc Int Int)
            = some (minLoc (.node RED .nil 3 7 .nil)
                (.right BLACK (.node RED .nil 1 5 .nil) 2 6 Path.root))
        ∧ rootEntry (minLoc (.node RED .nil 3 7 .nil)
              (.right BLACK (.node RED .nil 1 5 .nil) 2 6 Path.root)).1 = some (yk, yv)
        ∧ ((⟨.node BLACK (.node RED .nil 1 5 .nil) 2 6 (.node RED .nil 3 7 .nil), 3, intCmp⟩
              : RbTree Int Int).Delete
              (some (.node BLACK (.node RED .nil 1 5 .nil) 2 6 (.node RED .nil 3 7 .nil),
                Path.root))).root
            = (if yc = BLACK
               then rbDeleteFixup x (pathApp q
                  (.right BLACK (.node RED .nil 1 5 .nil) yk yv Path.root))
               else rebuild (pathApp q
                  (.right BLACK (.node RED .nil 1 5 .nil) yk yv Path.root)) x)
        ∧ ((⟨.node BLACK (.node RED .nil 1 5 .nil) 2 6 (.node RED .nil 3 7 .nil), 3, intCmp⟩
              : RbTree Int Int).Delete
              (some (.node BLACK (.node RED .nil 1 5 .nil) 2 6 (.node RED .nil 3 7 .nil),
                Path.root))).Size
            = (⟨.node BLACK (.node RED .nil 1 5 .nil) 2 6 (.node RED .nil 3 7 .nil), 3, intCmp⟩
                : RbTree Int Int).Size - 1) :=
  ⟨(claim_delete_semantics _).1,
   (claim_delete_semantics _).2 BLACK (.node RED .nil 1 5 .nil) 2 6
     (.node RED .nil 3 7 .nil) Path.root (by decide) (by decide)⟩

/-- Claim C5: under a valid comparator on a sorted tree,
`FindLowerBoundNode(k)` returns the leftmost in-order node whose key is
`>= k` (its entry is the first in-order entry with `cmp k key' <= 0`; none
when every key is smaller), the returned handle is a live node of the tree;
and on the example tree holding keys 1, 3, 5, 7 it returns the node with
key 3 for k = 2, the node with key 5 for k = 5, and null for k = 8. -/
theorem claim_lower_bound {t : RbTree α β} (hv : ValidCmp t.keyCmp)
    (hs : SortedEntries t.keyCmp (RbNode.inorder t.root)) (key : α) :
    ((t.FindLowerBoundNode key).bind (fun l => rootEntry l.1)
        = (RbNode.inorder t.root).find? (fun e => decide (t.keyCmp key e.1 ≤ 0)))
    ∧ (∀ res, t.FindLowerBoundNode key = some res →
        rebuild res.2 res.1 = t.root ∧ res.1 ≠ .nil)
    ∧ ((exampleTree1357.FindLowerBoundNode 2).bind (fun l => rootEntry l.1) = some (3, 3)
        ∧ (exampleTree1357.FindLowerBoundNode 5).bind (fun l => rootEntry l.1) = some (5, 5)
        ∧ exampleTree1357.FindLowerBoundNode 8 = none) := by
  refine ⟨findLowerBoundNode_find hv key hs, fun res h => findLowerBoundNode_loc h,
    by decide, by decide, by decide⟩

theorem claim_lower_bound_witness :
    ((exampleTree1357.FindLowerBoundNode 2).bind (fun l => rootEntry l.1)
        = (RbNode.inorder exampleTree1357.root).find?
            (fun e => decide (exampleTree1357.keyCmp 2 e.1 ≤ 0)))
    ∧ (∀ res, exampleTree1357.FindLowerBoundNode 2 = some res →
        rebuild res.2 res.1 = exampleTree1357.root ∧ res.1 ≠ .nil)
    ∧ ((exampleTree1357.FindLowerBoundNode 2).bind (fun l => rootEntry l.1) = some (3, 3)
        ∧ (exampleTree1357.FindLowerBoundNode 5).bind (fun l => rootEntry l.1) = some (5, 5)
        ∧ exampleTree1357.FindLowerBoundNode 8 = none) :=
  claim_lower_bound validCmp_intCmp (by decide) 2

/-- Claim C6: under a valid comparator on a sorted tree,
`FindUpperBoundNode(k)` returns the leftmost in-order node whose key is
strictly `> k` (its entry is the first in-order entry with
`cmp k key' < 0`; none when no key exceeds k), the returned handle is a
live node of the tree; and on the example tree holding keys 1, 3, 5, 7 it
returns the node with key 3 for k = 1 and null for k = 7. -/
theorem claim_upper_bound {t : RbTree α β} (hv : ValidCmp t.keyCmp)
    (hs : SortedEntries t.keyCmp (RbNode.inorder t.root)) (key : α) :
    ((t.FindUpperBoundNode key).bind (fun l => rootEntry l.1)
        = (RbNode.inorder t.root).find? (fun e => decide (t.keyCmp key e.1 < 0)))
    ∧ (∀ res, t.FindUpperBoundNode key = some res →
        rebuild res.2 res.1 = t.root ∧ res.1 ≠ .nil)
    ∧ ((exampleTree1357.FindUpperBoundNode 1).bind (fun l => rootEntry l.1) = some (3, 3)
        ∧ exampleTree1357.FindUpperBoundNode 7 = none) := by
  refine ⟨findUpperBoundNode_find hv key hs, fun res h => findUpperBoundNode_loc h,
    by decide, by decide⟩

theorem claim_upper_bound_witness :
    ((exampleTree1357.FindUpperBoundNode 1).bind (fun l => rootEntry l.1)
        = (RbNode.inorder exampleTree1357.root).find?
            (fun e => decide (exampleTree1357.keyCmp 1 e.1 < 0)))
    ∧ (∀ res, exampleTree1357.FindUpperBoundNode 1 = some res →
        rebuild res.2 res.1 = exampleTree1357.root ∧ res.1 ≠ .nil)
    ∧ ((exampleTree1357.FindUpperBoundNode 1).bind (fun l => rootEntry l.1) = some (3, 3)
        ∧ exampleTree1357.FindUpperBoundNode 7 = none) :=
  claim_upper_bound validCmp_intCmp (by decide) 1

/-- Claim C7: `Find(key)` succeeds (returns a value with no error) iff
`FindLowerBoundNode(key)` returns a node whose key compares equal to the
query, and then the returned value is that node's value; otherwise it
returns the zero value of the value type paired with the explicit
not-found error — it always returns, never aborts. -/
theorem claim_find_total [Inhabited β] (t : RbTree α β) (key : α) :
    t.Find key = (match t.FindLowerBoundNode key with
      | some (.node _ _ k v _, _) =>
          if t.keyCmp k key = 0 then (v, none) else ((default : β), some GoErr.notFound)
      | _ => ((default : β), some GoErr.notFound)) := by
  rw [RbTree.Find, RbTree.FindLowerBoundNode, findFirstNode]
  cases h : findLowerBoundNode t.keyCmp key t.root Path.root with
  | none => rfl
  | some res =>
    obtain ⟨z, p⟩ := res
    cases z with
    | nil => rfl
    | node zc zl zk zv zr =>
      by_cases hz : t.keyCmp zk key = 0
      · simp [hz]
      · simp [hz]

/-- Claim C8: inserting any list of entries with pairwise inequivalent keys
into a fresh tree, then deleting all of them through `FindNode` handles in
any order, leaves `Empty() = true`, `Size() = 0` and a nil root. -/
theorem claim_round_trip {cmp : α → α → Int} (hv : ValidCmp cmp)
    (es : List (α × β)) (ks : List α)
    (hdist : (es.map Prod.fst).Pairwise (fun a b => cmp a b ≠ 0))
    (hperm : (es.map Prod.fst).Perm ks) :
    (deleteListK (insertListK cmp es) ks).Empty = true
    ∧ (deleteListK (insertListK cmp es) ks).Size = 0
    ∧ (deleteListK (insertListK cmp es) ks).root = .nil := by
  obtain ⟨hr, hc, hkeys⟩ := insertListK_spec cmp es
  have h := foldl_delete_empties hv ks (insertListK cmp es) hr hc (hkeys.trans hperm)
    ((hperm.pairwise_iff (fun hab h0 => hab (validCmp_zero_symm hv h0))).mp hdist)
  refine ⟨?_, h.2, h.1⟩
  rw [RbTree.Empty, h.2]
  rfl

theorem claim_round_trip_witness :
    (deleteListK (insertListK intCmp [((1 : Int), (10 : Int)), (2, 20), (3, 30)])
        [2, 3, 1]).Empty = true
    ∧ (deleteListK (insertListK intCmp [((1 : Int), (10 : Int)), (2, 20), (3, 30)])
        [2, 3, 1]).Size = 0
    ∧ (deleteListK (insertListK intCmp [((1 : Int), (10 : Int)), (2, 20), (3, 30)])
        [2, 3, 1]).root = .nil :=
  claim_round_trip validCmp_intCmp [((1 : Int), (10 : Int)), (2, 20), (3, 30)] [2, 3, 1]
    (by decide) (by decide)

/-- Claim C9: on a non-empty tree with N live nodes, starting at
`IterFirst` and calling `Next` N−1 times then `Prev` N−1 times returns the
cursor exactly to `IterFirst`, whose key is the first (minimum) key of the
in-order sequence. -/
theorem claim_iter_roundtrip {t : RbTree α β} (hne : t.root ≠ .nil) :
    (RbTreeIterator.Prev)^[(RbNode.inorder t.root).length - 1]
        ((RbTreeIterator.Next)^[(RbNode.inorder t.root).length - 1] t.IterFirst)
      = t.IterFirst
    ∧ (t.IterFirst).Key = ((RbNode.inorder t.root).map Prod.fst).head? := by
  have hlen : 0 < (RbNode.inorder t.root).length := by
    cases ht : t.root with
    | nil => exact absurd ht hne
    | node c l k v r => simp
  obtain ⟨l, hl, hn, _⟩ := iter_next_chain (t := t) ((RbNode.inorder t.root).length - 1) (by omega)
  exact ⟨prev_next_cancel _ _ ⟨l, hl⟩, iterFirst_key t⟩

theorem claim_iter_roundtrip_witness :
    ((RbTreeIterator.Prev)^[(RbNode.inorder (⟨.node BLACK .nil 1 5 (.node RED .nil 2 6 .nil),
          2, intCmp⟩ : RbTree Int Int).root).length - 1]
        ((RbTreeIterator.Next)^[(RbNode.inorder (⟨.node BLACK .nil 1 5 (.node RED .nil 2 6 .nil),
            2, intCmp⟩ : RbTree Int Int).root).length - 1]
          (⟨.node BLACK .nil 1 5 (.node RED .nil 2 6 .nil), 2, intCmp⟩
            : RbTree Int Int).IterFirst)
      = (⟨.node BLACK .nil 1 5 (.node RED .nil 2 6 .nil), 2, intCmp⟩
          : RbTree Int Int).IterFirst)
    ∧ ((⟨.node BLACK .nil 1 5 (.node RED .nil 2 6 .nil), 2, intCmp⟩
          : RbTree Int Int).IterFirst).Key
        = ((RbNode.inorder (⟨.node BLACK .nil 1 5 (.node RED .nil 2 6 .nil), 2, intCmp⟩
            : RbTree Int Int).root).map Prod.fst).head? :=
  claim_iter_roundtrip (by decide)

/-- Claim C10: `Key`, `Value` and `SetValue` dereference the held node and
are only defined on a valid cursor (on an invalid cursor the modelled
nil-pointer panic, `none`, results; on a cursor holding a live node they
return that node's key and value and write the value in place), while
`Next`, `Prev`, `IsValid`, `Clone` and `Equal` are total: on an invalid
cursor `Next` and `Prev` return it unchanged, `Clone` returns an equal
cursor and `Equal` holds reflexively. -/
theorem claim_iterator_safety [DecidableEq α] [DecidableEq β]
    (iter : RbTreeIterator α β) (val : β) :
    (iter.IsValid = false →
      iter.Key = none ∧ iter.Value = none ∧ iter.SetValue val = none
      ∧ iter.Next = iter ∧ iter.Prev = iter)
    ∧ (∀ c l k v r p, iter.node = some (.node c l k v r, p) →
        iter.Key = some k ∧ iter.Value = some v
        ∧ iter.SetValue val = some ⟨some (.node c l k val r, p)⟩)
    ∧ iter.Clone = iter ∧ iter.Equal iter = true := by
  obtain ⟨nodeOpt⟩ := iter
  refine ⟨?_, ?_, rfl, ?_⟩
  · intro hval
    cases nodeOpt with
    | some l => simp [RbTreeIterator.IsValid] at hval
    | none => exact ⟨rfl, rfl, rfl, rfl, rfl⟩
  · intro c l k v r p h
    cases nodeOpt with
    | none => simp at h
    | some l0 =>
      simp only [Option.some.injEq] at h
      rw [show l0 = ((.node c l k v r, p) : Loc α β) from h]
      exact ⟨rfl, rfl, rfl⟩
  · simp [RbTreeIterator.Equal]

theorem claim_iterator_safety_witness :
    ((⟨none⟩ : RbTreeIterator Int Int).Key = none
      ∧ (⟨none⟩ : RbTreeIterator Int Int).Value = none
      ∧ (⟨none⟩ : RbTreeIterator Int Int).SetValue 0 = none)
    ∧ ((⟨some (.node BLACK .nil 1 5 .nil, .root)⟩ : RbTreeIterator Int Int).Key = some 1
      ∧ (⟨some (.node BLACK .nil 1 5 .nil, .root)⟩ : RbTreeIterator Int Int).Value = some 5) :=
  ⟨⟨(((claim_iterator_safety ⟨none⟩ 0).1) rfl).1,
    (((claim_iterator_safety ⟨none⟩ 0).1) rfl).2.1,
    (((claim_iterator_safety ⟨none⟩ 0).1) rfl).2.2.1⟩,
   ((claim_iterator_safety ⟨some (.node BLACK .nil 1 5 .nil, .root)⟩ 5).2.1
      BLACK .nil 1 5 .nil .root rfl).1,
   ((claim_iterator_safety ⟨some (.node BLACK .nil 1 5 .nil, .root)⟩ 5).2.1
      BLACK .nil 1 5 .nil .root rfl).2.1⟩

end Gostl
